import Mathlib

/-!
Verification of the whaticon fingerprinting and matching engine against its
specification.  The development is a shallow embedding of `src/index.ts`:

* byte buffers (`Buffer`) are `List Nat` whose elements are below 256;
* strings are `List Char` (JS strings are sequences of characters);
* JS numbers used for similarity scores are modelled over `ℚ`
  (every comparison appearing in the code and in the theorems below is
  performed on values far away from binary-floating-point rounding
  boundaries, so the rational model agrees with the double model there);
* 32-bit integer operations (`| & ^ << >>> Math.imul`) are modelled on `Nat`
  with explicit reduction modulo `2 ^ 32` where overflow matters.

External collaborators (the sharp rasterizer and gzip compression) are out
of the core: functions taking already-rasterized pixel buffers or already
decompressed payloads model their pure continuations, and the batch builder
is parametrised by rasterization oracles.
-/

set_option maxRecDepth 100000

namespace Whaticon

/-- `HASH_BYTES = 128` : 1024 bits = 128 bytes. -/
def HASH_BYTES : Nat := 128

/-! ### Fingerprint codec: Hamming distance (src/index.ts `hammingDistance`) -/

/-- The uint32 word assembled by the distance loops from four xor-ed bytes:
`((x0 | (x1 << 8) | (x2 << 16) | (x3 << 24)) >>> 0)`.  The trailing
`>>> 0` (JS to-uint32 conversion) is the reduction modulo `2 ^ 32`. -/
def word32 (x0 x1 x2 x3 : Nat) : Nat :=
  (x0 ||| (x1 <<< 8) ||| (x2 <<< 16) ||| (x3 <<< 24)) % 2 ^ 32

/-- First reassignment of the popcount trick: `xor = xor - ((xor >>> 1) & 0x55555555)`.
The JS subtraction never goes negative here (each 2-bit field loses at most its
own high bit), so `Nat` subtraction is faithful. -/
def popcS1 (x : Nat) : Nat := x - ((x >>> 1) &&& 0x55555555)

/-- Second reassignment: `xor = (xor & 0x33333333) + ((xor >>> 2) & 0x33333333)`. -/
def popcS2 (x : Nat) : Nat := (x &&& 0x33333333) + ((x >>> 2) &&& 0x33333333)

/-- Third reassignment: `xor = (xor + (xor >>> 4)) & 0x0f0f0f0f`. -/
def popcS3 (x : Nat) : Nat := (x + (x >>> 4)) &&& 0x0f0f0f0f

/-- Final expression: `Math.imul(xor, 0x01010101) >>> 24`.
`Math.imul` keeps the low 32 bits of the product. -/
def popcS4 (x : Nat) : Nat := ((x * 0x01010101) % 2 ^ 32) >>> 24

/-- The 32-bit popcount bit trick used by both distance routines, as the
sequence of the four reassignments of the local `xor` variable. -/
def popc32 (x : Nat) : Nat := popcS4 (popcS3 (popcS2 (popcS1 x)))

/-- The loop of `hammingDistance`: `for (let i = 0; i < h1.length; i += 4)`,
so `i` ranges over `0, 4, 8, …` for `⌈h1.length / 4⌉` iterations, accumulating
`popc32` of the xor word.  Out-of-range reads (`h1[i+1]!` past the end when the
length is not a multiple of 4) produce `undefined`, which `^` coerces to 0,
modelled by `getD _ 0`. -/
def hdLoop (h1 h2 : List Nat) : Nat :=
  (List.range' 0 ((h1.length + 3) / 4) 4).foldl (fun dist i => dist + popc32 (word32
    ((h1.getD i 0) ^^^ (h2.getD i 0))
    ((h1.getD (i + 1) 0) ^^^ (h2.getD (i + 1) 0))
    ((h1.getD (i + 2) 0) ^^^ (h2.getD (i + 2) 0))
    ((h1.getD (i + 3) 0) ^^^ (h2.getD (i + 3) 0)))) 0

/-- `hammingDistance(h1, h2)` : throws `Hash length mismatch` when the buffer
lengths differ, otherwise runs the popcount loop. -/
def hammingDistance (h1 h2 : List Nat) : Except String Nat :=
  if h1.length ≠ h2.length then
    .error ("Hash length mismatch: " ++ toString h1.length ++ " vs " ++ toString h2.length)
  else
    .ok (hdLoop h1 h2)

/-- `hashSimilarity(h1, h2) = 1 - distance / (h1.length * 8)`; the exception
from `hammingDistance` propagates. -/
def hashSimilarity (h1 h2 : List Nat) : Except String ℚ :=
  match hammingDistance h1 h2 with
  | .error e => .error e
  | .ok distance => .ok (1 - (distance : ℚ) / ((h1.length : ℚ) * 8))

/-- `hammingDistanceAtOffset(h1, indexHashes, offset)` from src/index.ts:
the same loop with a fixed trip count `for (let i = 0; i < HASH_BYTES; i += 4)`,
reading the second fingerprint from `indexHashes` at `offset + i`;
no length check is performed. -/
def hammingDistanceAtOffset (h1 indexHashes : List Nat) (offset : Nat) : Nat :=
  (List.range' 0 (HASH_BYTES / 4) 4).foldl (fun dist i => dist + popc32 (word32
    ((h1.getD i 0) ^^^ (indexHashes.getD (offset + i) 0))
    ((h1.getD (i + 1) 0) ^^^ (indexHashes.getD (offset + i + 1) 0))
    ((h1.getD (i + 2) 0) ^^^ (indexHashes.getD (offset + i + 2) 0))
    ((h1.getD (i + 3) 0) ^^^ (indexHashes.getD (offset + i + 3) 0)))) 0

/-! ### Naive bit-by-bit reference for the Hamming distance -/

/-- Naive popcount of the low 8 bits of a byte. -/
def pc8 (b : Nat) : Nat := (List.range 8).countP (fun j => b.testBit j)

/-- Naive bit-by-bit reference distance: the number of bit positions at which
two equal-length byte buffers differ. -/
def naiveHammingDistance (h1 h2 : List Nat) : Nat :=
  (List.range (8 * h1.length)).countP
    (fun k => (h1.getD (k / 8) 0).testBit (k % 8) != (h2.getD (k / 8) 0).testBit (k % 8))

/-! ### Correctness of the popcount bit trick -/

/-- Masking distributes over a bit-aligned split `a + 2 ^ k * b` with `a < 2 ^ k`. -/
theorem land_add_high (k a b m : Nat) (h : a < 2 ^ k) :
    (a + 2 ^ k * b) &&& m = (a &&& m) + 2 ^ k * (b &&& (m >>> k)) := by
  have ham : a &&& m < 2 ^ k := Nat.lt_of_le_of_lt Nat.and_le_left h
  apply Nat.eq_of_testBit_eq
  intro j
  rw [Nat.add_comm a, Nat.add_comm (a &&& m)]
  rw [Nat.testBit_land, Nat.testBit_mul_pow_two_add _ h, Nat.testBit_mul_pow_two_add _ ham]
  by_cases hj : j < k
  · simp [hj, Nat.testBit_land]
  · have hkj : k + (j - k) = j := by omega
    simp only [hj, if_false, Nat.testBit_land, Nat.testBit_shiftRight, hkj]

/-- Specialisation of `land_add_high` to a byte boundary. -/
theorem land_add_256 (a b m : Nat) (h : a < 256) :
    (a + 256 * b) &&& m = (a &&& m) + 256 * (b &&& (m >>> 8)) := by
  have := land_add_high 8 a b m (by norm_num [h])
  norm_num at this
  exact this

/-- Specialisation of `land_add_high` to a 7-bit boundary. -/
theorem land_add_128 (a b m : Nat) (h : a < 128) :
    (a + 128 * b) &&& m = (a &&& m) + 128 * (b &&& (m >>> 7)) := by
  have := land_add_high 7 a b m (by norm_num [h])
  norm_num at this
  exact this

/-- Specialisation of `land_add_high` to a 6-bit boundary. -/
theorem land_add_64 (a b m : Nat) (h : a < 64) :
    (a + 64 * b) &&& m = (a &&& m) + 64 * (b &&& (m >>> 6)) := by
  have := land_add_high 6 a b m (by norm_num [h])
  norm_num at this
  exact this

/-- A disjoint `|||` below a bit boundary is addition. -/
theorem lor_shift_high (k a b : Nat) (h : a < 2 ^ k) :
    a ||| (b <<< k) = a + 2 ^ k * b := by
  rw [Nat.shiftLeft_eq, Nat.mul_comm, Nat.lor_comm, ← Nat.mul_add_lt_is_or h, Nat.add_comm]

/-- The xor word of the distance loops is the base-256 combination of its bytes. -/
theorem word32_eq_bytes (x0 x1 x2 x3 : Nat)
    (h0 : x0 < 256) (h1 : x1 < 256) (h2 : x2 < 256) (h3 : x3 < 256) :
    word32 x0 x1 x2 x3 = x0 + 256 * x1 + 65536 * x2 + 16777216 * x3 := by
  unfold word32
  have e1 : x0 ||| (x1 <<< 8) = x0 + 256 * x1 := by
    have := lor_shift_high 8 x0 x1 (by norm_num [h0]); norm_num at this; exact this
  have e2 : (x0 + 256 * x1) ||| (x2 <<< 16) = x0 + 256 * x1 + 65536 * x2 := by
    have := lor_shift_high 16 (x0 + 256 * x1) x2 (by norm_num; omega)
    norm_num at this; exact this
  have e3 : (x0 + 256 * x1 + 65536 * x2) ||| (x3 <<< 24)
      = x0 + 256 * x1 + 65536 * x2 + 16777216 * x3 := by
    have := lor_shift_high 24 (x0 + 256 * x1 + 65536 * x2) x3 (by norm_num; omega)
    norm_num at this; exact this
  rw [e1, e2, e3, Nat.mod_eq_of_lt (by norm_num; omega)]

/-- For a byte-sized value only the low 8 bits of a mask matter. -/
theorem land_byte (b m : Nat) (h : b < 256) : b &&& m = b &&& (m % 256) := by
  have h256 : (256 : Nat) = 2 ^ 8 := by norm_num
  apply Nat.eq_of_testBit_eq
  intro j
  rw [Nat.testBit_land, Nat.testBit_land, h256, Nat.testBit_mod_two_pow]
  by_cases hj : j < 8
  · simp [hj]
  · have hb : b.testBit j = false := by
      apply Nat.testBit_lt_two_pow
      calc b < 2 ^ 8 := by omega
        _ ≤ 2 ^ j := Nat.pow_le_pow_right (by norm_num) (by omega)
    simp [hb]

/-- Masking with `0xF` is reduction modulo 16. -/
theorem land_mod16 (x : Nat) : x &&& 15 = x % 16 := by
  have h15 : (15 : Nat) = 2 ^ 4 - 1 := by norm_num
  have h16 : (16 : Nat) = 2 ^ 4 := by norm_num
  apply Nat.eq_of_testBit_eq
  intro j
  rw [Nat.testBit_land, h15, h16, Nat.testBit_two_pow_sub_one, Nat.testBit_mod_two_pow]
  exact Bool.and_comm _ _

/-- Per-byte action of the first popcount stage. -/
def pb1 (b : Nat) : Nat := b - ((b >>> 1) &&& 0x55)

/-- Per-byte action of the second popcount stage. -/
def pb2 (u : Nat) : Nat := (u &&& 0x33) + ((u >>> 2) &&& 0x33)

/-- Per-byte action of the third popcount stage. -/
def pb3 (v : Nat) : Nat := (v + (v >>> 4)) &&& 0xF

theorem pb1_facts : ∀ b < 256, ((b >>> 1) &&& 0x55) ≤ b ∧
    128 * (b &&& 0xAA) = 256 * ((b >>> 1) &&& 0x55) ∧ pb1 b < 256 := by decide

theorem pb2_facts : ∀ u < 256, 64 * (u &&& 0xCC) = 256 * ((u >>> 2) &&& 0x33) ∧
    pb2 u % 16 ≤ 6 ∧ pb2 u / 16 ≤ 6 := by decide

/-- The composed per-byte chain computes the naive popcount of the byte. -/
theorem pb_chain_pc8 : ∀ b < 256, pb3 (pb2 (pb1 b)) = pc8 b := by decide

theorem pc8_le_8 (b : Nat) : pc8 b ≤ 8 := by
  calc pc8 b ≤ (List.range 8).length := List.countP_le_length _
    _ = 8 := by simp

theorem shiftRight_one_eq (n : Nat) : n >>> 1 = n / 2 :=
  Nat.shiftRight_eq_div_pow n 1

theorem shiftRight_two_eq (n : Nat) : n >>> 2 = n / 4 :=
  Nat.shiftRight_eq_div_pow n 2

theorem shiftRight_four_eq (n : Nat) : n >>> 4 = n / 16 :=
  Nat.shiftRight_eq_div_pow n 4

/-- Stage 1 acts independently on the four bytes of the word. -/
theorem popcS1_bytes (b0 b1 b2 b3 : Nat)
    (h0 : b0 < 256) (h1 : b1 < 256) (h2 : b2 < 256) (h3 : b3 < 256) :
    popcS1 (b0 + 256 * b1 + 65536 * b2 + 16777216 * b3)
      = pb1 b0 + 256 * pb1 b1 + 65536 * pb1 b2 + 16777216 * pb1 b3 := by
  unfold popcS1
  have hdiv : (b0 + 256 * b1 + 65536 * b2 + 16777216 * b3) >>> 1
      = b0 / 2 + 128 * (b1 + 256 * (b2 + 256 * b3)) := by
    rw [shiftRight_one_eq]; omega
  have hmask : ((b0 + 256 * b1 + 65536 * b2 + 16777216 * b3) >>> 1) &&& 0x55555555
      = (b0 / 2 &&& 0x55) + 128 * ((b1 &&& 0xAA)
        + 256 * ((b2 &&& 0xAA) + 256 * (b3 &&& 0xAA))) := by
    rw [hdiv, land_add_128 _ _ _ (by omega)]
    have c1 : (0x55555555 : Nat) >>> 7 = 0x00AAAAAA := by decide
    rw [c1, land_add_256 _ _ _ h1]
    have c2 : (0x00AAAAAA : Nat) >>> 8 = 0x0000AAAA := by decide
    rw [c2, land_add_256 _ _ _ h2]
    have c3 : (0x0000AAAA : Nat) >>> 8 = 0xAA := by decide
    rw [c3]
    have d0 : b0 / 2 &&& 0x55555555 = b0 / 2 &&& 0x55 := by
      have := land_byte (b0 / 2) 0x55555555 (by omega); norm_num at this; exact this
    have d1 : b1 &&& 0x00AAAAAA = b1 &&& 0xAA := by
      have := land_byte b1 0x00AAAAAA h1; norm_num at this; exact this
    have d2 : b2 &&& 0x0000AAAA = b2 &&& 0xAA := by
      have := land_byte b2 0x0000AAAA h2; norm_num at this; exact this
    rw [d0, d1, d2]
  rw [hmask]
  unfold pb1
  have e0 : b0 / 2 &&& 0x55 = (b0 >>> 1) &&& 0x55 := by rw [shiftRight_one_eq]
  have e1 := (pb1_facts b1 h1).2.1
  have e2 := (pb1_facts b2 h2).2.1
  have e3 := (pb1_facts b3 h3).2.1
  have l0 := (pb1_facts b0 h0).1
  have l1 := (pb1_facts b1 h1).1
  have l2 := (pb1_facts b2 h2).1
  have l3 := (pb1_facts b3 h3).1
  rw [e0]
  omega

/-- Stage 2 acts independently on the four bytes of the word. -/
theorem popcS2_bytes (u0 u1 u2 u3 : Nat)
    (h0 : u0 < 256) (h1 : u1 < 256) (h2 : u2 < 256) (h3 : u3 < 256) :
    popcS2 (u0 + 256 * u1 + 65536 * u2 + 16777216 * u3)
      = pb2 u0 + 256 * pb2 u1 + 65536 * pb2 u2 + 16777216 * pb2 u3 := by
  unfold popcS2
  have partA : (u0 + 256 * u1 + 65536 * u2 + 16777216 * u3) &&& 0x33333333
      = (u0 &&& 0x33) + 256 * ((u1 &&& 0x33)
        + 256 * ((u2 &&& 0x33) + 256 * (u3 &&& 0x33))) := by
    have re : u0 + 256 * u1 + 65536 * u2 + 16777216 * u3
        = u0 + 256 * (u1 + 256 * (u2 + 256 * u3)) := by ring
    rw [re, land_add_256 _ _ _ h0]
    have c1 : (0x33333333 : Nat) >>> 8 = 0x00333333 := by decide
    rw [c1, land_add_256 _ _ _ h1]
    have c2 : (0x00333333 : Nat) >>> 8 = 0x3333 := by decide
    rw [c2, land_add_256 _ _ _ h2]
    have c3 : (0x3333 : Nat) >>> 8 = 0x33 := by decide
    rw [c3]
    have d0 : u0 &&& 0x33333333 = u0 &&& 0x33 := by
      have := land_byte u0 0x33333333 h0; norm_num at this; exact this
    have d1 : u1 &&& 0x00333333 = u1 &&& 0x33 := by
      have := land_byte u1 0x00333333 h1; norm_num at this; exact this
    have d2 : u2 &&& 0x3333 = u2 &&& 0x33 := by
      have := land_byte u2 0x3333 h2; norm_num at this; exact this
    rw [d0, d1, d2]
  have hdiv : (u0 + 256 * u1 + 65536 * u2 + 16777216 * u3) >>> 2
      = u0 / 4 + 64 * (u1 + 256 * (u2 + 256 * u3)) := by
    rw [shiftRight_two_eq]; omega
  have partB : ((u0 + 256 * u1 + 65536 * u2 + 16777216 * u3) >>> 2) &&& 0x33333333
      = (u0 / 4 &&& 0x33) + 64 * ((u1 &&& 0xCC)
        + 256 * ((u2 &&& 0xCC) + 256 * (u3 &&& 0xCC))) := by
    rw [hdiv, land_add_64 _ _ _ (by omega)]
    have c1 : (0x33333333 : Nat) >>> 6 = 0x00CCCCCC := by decide
    rw [c1, land_add_256 _ _ _ h1]
    have c2 : (0x00CCCCCC : Nat) >>> 8 = 0x0000CCCC := by decide
    rw [c2, land_add_256 _ _ _ h2]
    have c3 : (0x0000CCCC : Nat) >>> 8 = 0xCC := by decide
    rw [c3]
    have d0 : u0 / 4 &&& 0x33333333 = u0 / 4 &&& 0x33 := by
      have := land_byte (u0 / 4) 0x33333333 (by omega); norm_num at this; exact this
    have d1 : u1 &&& 0x00CCCCCC = u1 &&& 0xCC := by
      have := land_byte u1 0x00CCCCCC h1; norm_num at this; exact this
    have d2 : u2 &&& 0x0000CCCC = u2 &&& 0xCC := by
      have := land_byte u2 0x0000CCCC h2; norm_num at this; exact this
    rw [d0, d1, d2]
  rw [partA, partB]
  unfold pb2
  have e0 : u0 / 4 &&& 0x33 = (u0 >>> 2) &&& 0x33 := by rw [shiftRight_two_eq]
  have f1 := (pb2_facts u1 h1).1
  have f2 := (pb2_facts u2 h2).1
  have f3 := (pb2_facts u3 h3).1
  rw [e0]
  omega

/-- Stage 3 acts independently on the four bytes of the word (given the
nibble bounds established by stage 2, no carry crosses a byte boundary and
the final mask removes the only cross-byte contribution). -/
theorem popcS3_bytes (v0 v1 v2 v3 : Nat)
    (h0 : v0 % 16 ≤ 6 ∧ v0 / 16 ≤ 6) (h1 : v1 % 16 ≤ 6 ∧ v1 / 16 ≤ 6)
    (h2 : v2 % 16 ≤ 6 ∧ v2 / 16 ≤ 6) (h3 : v3 % 16 ≤ 6 ∧ v3 / 16 ≤ 6) :
    popcS3 (v0 + 256 * v1 + 65536 * v2 + 16777216 * v3)
      = pb3 v0 + 256 * pb3 v1 + 65536 * pb3 v2 + 16777216 * pb3 v3 := by
  unfold popcS3
  have hS : (v0 + 256 * v1 + 65536 * v2 + 16777216 * v3)
        + ((v0 + 256 * v1 + 65536 * v2 + 16777216 * v3) >>> 4)
      = (v0 + v0 / 16 + 16 * (v1 % 16))
        + 256 * ((v1 + v1 / 16 + 16 * (v2 % 16))
        + 256 * ((v2 + v2 / 16 + 16 * (v3 % 16))
        + 256 * (v3 + v3 / 16))) := by
    rw [shiftRight_four_eq]; omega
  rw [hS]
  rw [land_add_256 _ _ _ (by omega)]
  have c1 : (0x0f0f0f0f : Nat) >>> 8 = 0x000f0f0f := by decide
  rw [c1, land_add_256 _ _ _ (by omega)]
  have c2 : (0x000f0f0f : Nat) >>> 8 = 0x0f0f := by decide
  rw [c2, land_add_256 _ _ _ (by omega)]
  have c3 : (0x0f0f : Nat) >>> 8 = 0xF := by decide
  rw [c3]
  have d0 : (v0 + v0 / 16 + 16 * (v1 % 16)) &&& 0x0f0f0f0f
      = (v0 + v0 / 16 + 16 * (v1 % 16)) &&& 0xF := by
    have := land_byte (v0 + v0 / 16 + 16 * (v1 % 16)) 0x0f0f0f0f (by omega)
    norm_num at this; exact this
  have d1 : (v1 + v1 / 16 + 16 * (v2 % 16)) &&& 0x000f0f0f
      = (v1 + v1 / 16 + 16 * (v2 % 16)) &&& 0xF := by
    have := land_byte (v1 + v1 / 16 + 16 * (v2 % 16)) 0x000f0f0f (by omega)
    norm_num at this; exact this
  have d2 : (v2 + v2 / 16 + 16 * (v3 % 16)) &&& 0x0f0f
      = (v2 + v2 / 16 + 16 * (v3 % 16)) &&& 0xF := by
    have := land_byte (v2 + v2 / 16 + 16 * (v3 % 16)) 0x0f0f (by omega)
    norm_num at this; exact this
  rw [d0, d1, d2]
  have pbeq : ∀ v w : Nat, pb3 v = (v + v / 16 + 16 * w) &&& 0xF := by
    intro v w
    show pb3 v = _ &&& 15
    rw [land_mod16]
    unfold pb3
    show _ &&& 15 = _
    rw [land_mod16, shiftRight_four_eq]
    omega
  rw [← pbeq v0 (v1 % 16), ← pbeq v1 (v2 % 16), ← pbeq v2 (v3 % 16)]
  have pbeq3 : pb3 v3 = (v3 + v3 / 16) &&& 0xF := by
    have := pbeq v3 0; simpa using this
  rw [← pbeq3]
  ring

/-- Stage 4 sums the four byte counts into the top byte and extracts it. -/
theorem popcS4_bytes (p0 p1 p2 p3 : Nat)
    (h0 : p0 ≤ 8) (h1 : p1 ≤ 8) (h2 : p2 ≤ 8) (h3 : p3 ≤ 8) :
    popcS4 (p0 + 256 * p1 + 65536 * p2 + 16777216 * p3) = p0 + p1 + p2 + p3 := by
  unfold popcS4
  have expand : (p0 + 256 * p1 + 65536 * p2 + 16777216 * p3) * 0x01010101
      = (p0 + 256 * (p0 + p1) + 65536 * (p0 + p1 + p2)
          + 16777216 * (p0 + p1 + p2 + p3))
        + 4294967296 * ((p1 + p2 + p3) + 256 * (p2 + p3) + 65536 * p3) := by
    ring
  have h32 : (2 : Nat) ^ 32 = 4294967296 := by norm_num
  rw [expand, h32, Nat.add_mul_mod_self_left, Nat.mod_eq_of_lt (by omega),
    Nat.shiftRight_eq_div_pow]
  have h24 : (2 : Nat) ^ 24 = 16777216 := by norm_num
  rw [h24]
  omega

/-- The popcount trick computes the sum of the four bytes' naive popcounts. -/
theorem popc32_bytes (b0 b1 b2 b3 : Nat)
    (h0 : b0 < 256) (h1 : b1 < 256) (h2 : b2 < 256) (h3 : b3 < 256) :
    popc32 (b0 + 256 * b1 + 65536 * b2 + 16777216 * b3)
      = pc8 b0 + pc8 b1 + pc8 b2 + pc8 b3 := by
  have q0 := (pb1_facts b0 h0).2.2
  have q1 := (pb1_facts b1 h1).2.2
  have q2 := (pb1_facts b2 h2).2.2
  have q3 := (pb1_facts b3 h3).2.2
  unfold popc32
  rw [popcS1_bytes b0 b1 b2 b3 h0 h1 h2 h3,
    popcS2_bytes _ _ _ _ q0 q1 q2 q3,
    popcS3_bytes _ _ _ _ ⟨(pb2_facts _ q0).2.1, (pb2_facts _ q0).2.2⟩
      ⟨(pb2_facts _ q1).2.1, (pb2_facts _ q1).2.2⟩
      ⟨(pb2_facts _ q2).2.1, (pb2_facts _ q2).2.2⟩
      ⟨(pb2_facts _ q3).2.1, (pb2_facts _ q3).2.2⟩,
    pb_chain_pc8 b0 h0, pb_chain_pc8 b1 h1, pb_chain_pc8 b2 h2, pb_chain_pc8 b3 h3]
  exact popcS4_bytes _ _ _ _ (pc8_le_8 b0) (pc8_le_8 b1) (pc8_le_8 b2) (pc8_le_8 b3)

/-! ### The distance loops compute the naive bit-by-bit distance -/

/-- Byte `j` of the xor of two buffers (0 past the end, as in the JS loops). -/
def xorByte (h1 h2 : List Nat) (j : Nat) : Nat := (h1.getD j 0) ^^^ (h2.getD j 0)

/-- Per-byte popcount sum of the xor over the first `n` byte positions. -/
def pcSumTo (h1 h2 : List Nat) : Nat → Nat
  | 0 => 0
  | n + 1 => pcSumTo h1 h2 n + pc8 (xorByte h1 h2 n)

/-- Per-byte popcount sum of the xor from position `i` to the end. -/
def pcSum1 (h1 h2 : List Nat) (i : Nat) : Nat :=
  if i < h1.length then pc8 (xorByte h1 h2 i) + pcSum1 h1 h2 (i + 1) else 0
termination_by h1.length - i

theorem pcSum1_step (h1 h2 : List Nat) (i : Nat) (hi : i < h1.length) :
    pcSum1 h1 h2 i = pc8 (xorByte h1 h2 i) + pcSum1 h1 h2 (i + 1) := by
  rw [pcSum1]; simp [hi]

theorem pcSum1_stop (h1 h2 : List Nat) (i : Nat) (hi : ¬ i < h1.length) :
    pcSum1 h1 h2 i = 0 := by
  rw [pcSum1]; simp [hi]

theorem getD_lt_256 (h : List Nat) (wf : ∀ b ∈ h, b < 256) (j : Nat) :
    h.getD j 0 < 256 := by
  by_cases hj : j < h.length
  · rw [List.getD_eq_getElem?_getD, List.getElem?_eq_getElem hj]
    exact wf _ (List.getElem_mem hj)
  · rw [List.getD_eq_getElem?_getD, List.getElem?_eq_none (by omega)]
    norm_num

theorem xorByte_lt_256 (h1 h2 : List Nat) (wf1 : ∀ b ∈ h1, b < 256)
    (wf2 : ∀ b ∈ h2, b < 256) (j : Nat) : xorByte h1 h2 j < 256 := by
  have e : (256 : Nat) = 2 ^ 8 := by norm_num
  rw [xorByte, e]
  exact Nat.xor_lt_two_pow (e ▸ getD_lt_256 h1 wf1 j) (e ▸ getD_lt_256 h2 wf2 j)

theorem xorByte_past_end (h1 h2 : List Nat) (hlen : h1.length = h2.length) (j : Nat)
    (hj : h1.length ≤ j) : xorByte h1 h2 j = 0 := by
  rw [xorByte, List.getD_eq_getElem?_getD, List.getD_eq_getElem?_getD,
    List.getElem?_eq_none hj, List.getElem?_eq_none (by omega)]
  rfl

theorem pc8_zero : pc8 0 = 0 := by decide

/-- Expanding four steps of the per-byte sum (with the tail padding zero). -/
theorem pcSum1_four (h1 h2 : List Nat) (hlen : h1.length = h2.length)
    (i : Nat) (hi : i < h1.length) :
    pcSum1 h1 h2 i = pc8 (xorByte h1 h2 i) + pc8 (xorByte h1 h2 (i + 1))
      + pc8 (xorByte h1 h2 (i + 2)) + pc8 (xorByte h1 h2 (i + 3))
      + pcSum1 h1 h2 (i + 4) := by
  by_cases c3 : i + 3 < h1.length
  · rw [pcSum1_step h1 h2 i hi, pcSum1_step h1 h2 (i + 1) (by omega),
      pcSum1_step h1 h2 (i + 2) (by omega)]
    have e : i + 1 + 1 + 1 = i + 3 := by omega
    rw [e, pcSum1_step h1 h2 (i + 3) c3]
    have e2 : i + 3 + 1 = i + 4 := by omega
    rw [e2]; ring
  · by_cases c2 : i + 2 < h1.length
    · rw [pcSum1_step h1 h2 i hi, pcSum1_step h1 h2 (i + 1) (by omega),
        pcSum1_step h1 h2 (i + 2) (by omega)]
      rw [show i + 1 + 1 + 1 = i + 3 from by omega]
      rw [pcSum1_stop h1 h2 (i + 3) c3, pcSum1_stop h1 h2 (i + 4) (by omega),
        xorByte_past_end h1 h2 hlen (i + 3) (by omega), pc8_zero]
      omega
    · by_cases c1 : i + 1 < h1.length
      · rw [pcSum1_step h1 h2 i hi, pcSum1_step h1 h2 (i + 1) (by omega)]
        rw [show i + 1 + 1 = i + 2 from by omega]
        rw [pcSum1_stop h1 h2 (i + 2) c2, pcSum1_stop h1 h2 (i + 4) (by omega),
          xorByte_past_end h1 h2 hlen (i + 2) (by omega),
          xorByte_past_end h1 h2 hlen (i + 3) (by omega), pc8_zero]
        omega
      · rw [pcSum1_step h1 h2 i hi, pcSum1_stop h1 h2 (i + 1) c1,
          pcSum1_stop h1 h2 (i + 4) (by omega),
          xorByte_past_end h1 h2 hlen (i + 1) (by omega),
          xorByte_past_end h1 h2 hlen (i + 2) (by omega),
          xorByte_past_end h1 h2 hlen (i + 3) (by omega), pc8_zero]

/-- The distance loop accumulates exactly the per-byte popcount sums:
generalised over the remaining chunk list. -/
theorem hdFold_eq_pcSum1 (h1 h2 : List Nat) (hlen : h1.length = h2.length)
    (wf1 : ∀ b ∈ h1, b < 256) (wf2 : ∀ b ∈ h2, b < 256) :
    ∀ n s d, h1.length ≤ s + 4 * n →
      (List.range' s n 4).foldl (fun dist i => dist + popc32 (word32
        (xorByte h1 h2 i) (xorByte h1 h2 (i + 1))
        (xorByte h1 h2 (i + 2)) (xorByte h1 h2 (i + 3)))) d
      = d + pcSum1 h1 h2 s := by
  intro n
  induction n with
  | zero =>
    intro s d hs
    rw [List.range'_zero, List.foldl_nil, pcSum1_stop h1 h2 s (by omega)]
    omega
  | succ n ih =>
    intro s d hs
    rw [List.range'_succ, List.foldl_cons, ih (s + 4) _ (by omega)]
    have hw := word32_eq_bytes _ _ _ _ (xorByte_lt_256 h1 h2 wf1 wf2 s)
      (xorByte_lt_256 h1 h2 wf1 wf2 (s + 1)) (xorByte_lt_256 h1 h2 wf1 wf2 (s + 2))
      (xorByte_lt_256 h1 h2 wf1 wf2 (s + 3))
    have hp := popc32_bytes _ _ _ _ (xorByte_lt_256 h1 h2 wf1 wf2 s)
      (xorByte_lt_256 h1 h2 wf1 wf2 (s + 1)) (xorByte_lt_256 h1 h2 wf1 wf2 (s + 2))
      (xorByte_lt_256 h1 h2 wf1 wf2 (s + 3))
    rw [hw, hp]
    by_cases hsl : s < h1.length
    · rw [pcSum1_four h1 h2 hlen s hsl]; ring
    · rw [pcSum1_stop h1 h2 s hsl, pcSum1_stop h1 h2 (s + 4) (by omega),
        xorByte_past_end h1 h2 hlen s (by omega),
        xorByte_past_end h1 h2 hlen (s + 1) (by omega),
        xorByte_past_end h1 h2 hlen (s + 2) (by omega),
        xorByte_past_end h1 h2 hlen (s + 3) (by omega), pc8_zero]

/-- `hdLoop` computes the total per-byte popcount sum. -/
theorem hdLoop_eq_pcSum1 (h1 h2 : List Nat) (hlen : h1.length = h2.length)
    (wf1 : ∀ b ∈ h1, b < 256) (wf2 : ∀ b ∈ h2, b < 256) :
    hdLoop h1 h2 = pcSum1 h1 h2 0 := by
  unfold hdLoop
  have := hdFold_eq_pcSum1 h1 h2 hlen wf1 wf2 ((h1.length + 3) / 4) 0 0 (by omega)
  simpa [xorByte] using this

/-- The suffix sums and the prefix sums assemble to the same total. -/
theorem pcSum1_add_pcSumTo (h1 h2 : List Nat) :
    ∀ k i, h1.length - i ≤ k → i ≤ h1.length →
      pcSum1 h1 h2 i + pcSumTo h1 h2 i = pcSumTo h1 h2 h1.length := by
  intro k
  induction k with
  | zero =>
    intro i hk hi
    have : i = h1.length := by omega
    subst this
    rw [pcSum1_stop h1 h2 _ (by omega)]
    omega
  | succ k ih =>
    intro i hk hi
    by_cases hlt : i < h1.length
    · rw [pcSum1_step h1 h2 i hlt, ← ih (i + 1) (by omega) (by omega)]
      show _ = pcSum1 h1 h2 (i + 1) + (pcSumTo h1 h2 i + pc8 (xorByte h1 h2 i))
      ring
    · have : i = h1.length := by omega
      subst this
      rw [pcSum1_stop h1 h2 _ (by omega)]
      omega

/-- The naive bit-position count equals the per-byte popcount total. -/
theorem countP_bits_eq_pcSumTo (h1 h2 : List Nat) :
    ∀ n, (List.range (8 * n)).countP
        (fun k => (h1.getD (k / 8) 0).testBit (k % 8) != (h2.getD (k / 8) 0).testBit (k % 8))
      = pcSumTo h1 h2 n := by
  intro n
  induction n with
  | zero => rfl
  | succ n ih =>
    have e : 8 * (n + 1) = 8 * n + 8 := by ring
    rw [e, List.range_add, List.countP_append, ih, List.countP_map]
    show pcSumTo h1 h2 n + _ = pcSumTo h1 h2 n + pc8 (xorByte h1 h2 n)
    congr 1
    unfold pc8
    apply List.countP_congr
    intro t ht
    have ht8 : t < 8 := List.mem_range.mp ht
    have hdiv : (8 * n + t) / 8 = n := by omega
    have hmod : (8 * n + t) % 8 = t := by omega
    simp only [Function.comp, hdiv, hmod, xorByte, Nat.testBit_xor,
      List.getD_eq_getElem?_getD]

/-- `hammingDistance` on equal-length well-formed buffers returns the naive
bit-by-bit distance. -/
theorem hammingDistance_eq_naive (h1 h2 : List Nat) (hlen : h1.length = h2.length)
    (wf1 : ∀ b ∈ h1, b < 256) (wf2 : ∀ b ∈ h2, b < 256) :
    hammingDistance h1 h2 = .ok (naiveHammingDistance h1 h2) := by
  unfold hammingDistance
  rw [if_neg (by omega)]
  congr 1
  rw [hdLoop_eq_pcSum1 h1 h2 hlen wf1 wf2]
  have := pcSum1_add_pcSumTo h1 h2 h1.length 0 (by omega) (by omega)
  unfold naiveHammingDistance
  rw [countP_bits_eq_pcSumTo h1 h2 h1.length]
  simp [pcSumTo] at this
  omega

instance : DecidableEq (Except String Nat) := fun a b =>
  match a, b with
  | .ok x, .ok y =>
    if h : x = y then .isTrue (by rw [h]) else .isFalse (by simp [h])
  | .ok _, .error _ => .isFalse (by simp)
  | .error _, .ok _ => .isFalse (by simp)
  | .error x, .error y =>
    if h : x = y then .isTrue (by rw [h]) else .isFalse (by simp [h])

theorem naive_symm (h1 h2 : List Nat) (hlen : h1.length = h2.length) :
    naiveHammingDistance h1 h2 = naiveHammingDistance h2 h1 := by
  unfold naiveHammingDistance
  rw [hlen]
  apply List.countP_congr
  intro k _
  have : ∀ a b : Bool, ((a != b) = true) ↔ ((b != a) = true) := by decide
  exact this _ _

theorem naive_self (h : List Nat) : naiveHammingDistance h h = 0 := by
  unfold naiveHammingDistance
  rw [List.countP_eq_zero]
  intro k _
  simp

/-- C3: for equal-length well-formed byte buffers, `hammingDistance` computes
the naive bit-by-bit count of differing bit positions; hence it is symmetric
and zero on identical buffers, and the all-0x00 vs all-0xFF 128-byte buffers
are at distance 1024. -/
theorem C3_hammingDistance_matches_naive (h1 h2 : List Nat)
    (hlen : h1.length = h2.length)
    (wf1 : ∀ b ∈ h1, b < 256) (wf2 : ∀ b ∈ h2, b < 256) :
    hammingDistance h1 h2 = .ok (naiveHammingDistance h1 h2)
      ∧ hammingDistance h1 h2 = hammingDistance h2 h1
      ∧ hammingDistance h1 h1 = .ok 0
      ∧ hammingDistance (List.replicate 128 0x00) (List.replicate 128 0xFF)
          = .ok 1024 := by
  refine ⟨hammingDistance_eq_naive h1 h2 hlen wf1 wf2, ?_, ?_, ?_⟩
  · rw [hammingDistance_eq_naive h1 h2 hlen wf1 wf2,
      hammingDistance_eq_naive h2 h1 hlen.symm wf2 wf1,
      naive_symm h1 h2 hlen]
  · rw [hammingDistance_eq_naive h1 h1 rfl wf1 wf1, naive_self]
  · decide

/-- C3 witness: the theorem applied to the concrete pair `[0x0F]`, `[0xF0]`
(distance 8). -/
theorem C3_witness :
    ([0x0F] : List Nat).length = ([0xF0] : List Nat).length
      ∧ (hammingDistance [0x0F] [0xF0] = .ok (naiveHammingDistance [0x0F] [0xF0])
        ∧ hammingDistance [0x0F] [0xF0] = hammingDistance [0xF0] [0x0F]
        ∧ hammingDistance [0x0F] [0x0F] = .ok 0
        ∧ hammingDistance (List.replicate 128 0x00) (List.replicate 128 0xFF)
            = .ok 1024) :=
  ⟨by decide, C3_hammingDistance_matches_naive [0x0F] [0xF0] (by decide)
    (by decide) (by decide)⟩

/-- C6: on buffers of differing lengths both `hammingDistance` and
`hashSimilarity` fail with the length-mismatch error and never return a
numeric result. -/
theorem C6_length_mismatch_fails (h1 h2 : List Nat) (hne : h1.length ≠ h2.length) :
    hammingDistance h1 h2 = .error
        ("Hash length mismatch: " ++ toString h1.length ++ " vs " ++ toString h2.length)
      ∧ hashSimilarity h1 h2 = .error
        ("Hash length mismatch: " ++ toString h1.length ++ " vs " ++ toString h2.length) := by
  have e : hammingDistance h1 h2 = .error
      ("Hash length mismatch: " ++ toString h1.length ++ " vs " ++ toString h2.length) := by
    unfold hammingDistance
    rw [if_pos hne]
  refine ⟨e, ?_⟩
  unfold hashSimilarity
  rw [e]

/-- C6 witness: the theorem applied to a 1-byte and a 0-byte buffer. -/
theorem C6_witness :
    ([0] : List Nat).length ≠ ([] : List Nat).length
      ∧ (hammingDistance [0] [] = .error ("Hash length mismatch: "
            ++ toString ([0] : List Nat).length ++ " vs " ++ toString ([] : List Nat).length)
        ∧ hashSimilarity [0] [] = .error ("Hash length mismatch: "
            ++ toString ([0] : List Nat).length ++ " vs " ++ toString ([] : List Nat).length)) :=
  ⟨by decide, C6_length_mismatch_fails [0] [] (by decide)⟩

theorem foldl_congr_mem {α β : Type} (l : List α) (f g : β → α → β)
    (h : ∀ d a, a ∈ l → f d a = g d a) : ∀ d, l.foldl f d = l.foldl g d := by
  induction l with
  | nil => intro d; rfl
  | cons x xs ih =>
    intro d
    rw [List.foldl_cons, List.foldl_cons, h d x (by simp)]
    exact ih (fun d a ha => h d a (by simp [ha])) _

theorem slice_getD (buf : List Nat) (off j : Nat) (hj : j < 128) :
    ((buf.drop off).take 128).getD j 0 = buf.getD (off + j) 0 := by
  rw [List.getD_eq_getElem?_getD, List.getD_eq_getElem?_getD,
    List.getElem?_take_of_lt hj, List.getElem?_drop]

/-- C7: the allocation-free offset-based scan refines the reference distance:
for a 128-byte query hash and a record whose 128 bytes lie inside the backing
buffer, `hammingDistanceAtOffset` at offset `i * 128` returns exactly what
`hammingDistance` returns on the materialised 128-byte slice. -/
theorem C7_offset_refines_hammingDistance (h1 buf : List Nat) (i : Nat)
    (hh : h1.length = 128) (hbuf : i * 128 + 128 ≤ buf.length) :
    hammingDistance h1 ((buf.drop (i * 128)).take 128)
      = .ok (hammingDistanceAtOffset h1 buf (i * 128)) := by
  have hslice : ((buf.drop (i * 128)).take 128).length = 128 := by
    rw [List.length_take, List.length_drop]
    omega
  unfold hammingDistance
  rw [if_neg (by omega)]
  unfold hdLoop hammingDistanceAtOffset
  have ht1 : (h1.length + 3) / 4 = 32 := by rw [hh]
  have ht2 : HASH_BYTES / 4 = 32 := by norm_num [HASH_BYTES]
  rw [ht1, ht2]
  refine congrArg Except.ok ?_
  apply foldl_congr_mem
  intro d a ha
  obtain ⟨t, ht, rfl⟩ := List.mem_range'.mp ha
  rw [slice_getD buf (i * 128) _ (by omega), slice_getD buf (i * 128) _ (by omega),
    slice_getD buf (i * 128) _ (by omega), slice_getD buf (i * 128) _ (by omega)]
  have e2 : i * 128 + (0 + 4 * t + 1) = i * 128 + (0 + 4 * t) + 1 := by omega
  have e3 : i * 128 + (0 + 4 * t + 2) = i * 128 + (0 + 4 * t) + 2 := by omega
  have e4 : i * 128 + (0 + 4 * t + 3) = i * 128 + (0 + 4 * t) + 3 := by omega
  rw [e2, e3, e4]

/-- C7 witness: the theorem applied to the all-zero query against record 0 of
an all-zero one-record buffer. -/
theorem C7_witness :
    (List.replicate 128 (0 : Nat)).length = 128
      ∧ 0 * 128 + 128 ≤ (List.replicate 128 (0 : Nat)).length
      ∧ hammingDistance (List.replicate 128 0)
          (((List.replicate 128 (0 : Nat)).drop (0 * 128)).take 128)
        = .ok (hammingDistanceAtOffset (List.replicate 128 0) (List.replicate 128 0) (0 * 128)) :=
  ⟨by decide, by decide,
    C7_offset_refines_hammingDistance (List.replicate 128 0) (List.replicate 128 0) 0
      (by decide) (by decide)⟩

/-! ### Matcher (src/index.ts `findMatches`)

`findMatches` first rasterizes the query svg through the external renderer and
hashes it (`computeDHash`); the pure core below (`findMatchesCore`) receives
that query fingerprint and performs the scan, sort and truncation on it.
`Array.prototype.sort` is modelled as a stable binary insertion sort (what V8
uses for short arrays); ECMA-262 leaves the order implementation-defined when
the comparator is not consistent, which this comparator is not (the 0.001
epsilon tie relation is not transitive). -/

/-- `IconMatch`: a `{ name, similarity }` result record. -/
structure IconMatch where
  name : List Char
  similarity : ℚ
deriving DecidableEq

instance : Inhabited IconMatch := ⟨⟨[], 0⟩⟩

/-- `IconIndex`: parsed names plus the packed fingerprint buffer. -/
structure IconIndex where
  names : List (List Char)
  hashes : List Nat
deriving DecidableEq

/-- `MatchOptions` with the defaults destructured in `findMatches`
(`size` is consumed by the rasterization step, not by the core scan). -/
structure MatchOptions where
  size : Nat := 32
  limit : Nat := 10
  threshold : ℚ := 8 / 10
  prefixes : Option (List (List Char)) := none
  prefer : Option (List (List Char)) := none

/-- `name.split(':')[0] ?? ''` : the characters before the first colon. -/
def pfxOf (name : List Char) : List Char := name.takeWhile (fun c => c ≠ ':')

/-- `xs?.length ? new Set(xs) : null` : `none` when absent or empty. -/
def setOfOpt (o : Option (List (List Char))) : Option (List (List Char)) :=
  match o with
  | some l => if l.isEmpty then none else some l
  | none => none

/-- The scan loop of `findMatches`: for each record, prefix pre-filter, then
integer distance threshold, then the `similarity >= threshold` guard. -/
def scanMatches (inputHash : List Nat) (index : IconIndex)
    (prefixSet : Option (List (List Char))) (thresholdDist : ℤ) (threshold : ℚ) :
    List IconMatch :=
  (List.range index.names.length).foldl (fun acc i =>
    let name := index.names.getD i []
    let skip : Bool :=
      match prefixSet with
      | some ps => (pfxOf name).isEmpty || !(ps.contains (pfxOf name))
      | none => false
    if skip then acc
    else
      let dist := hammingDistanceAtOffset inputHash index.hashes (i * HASH_BYTES)
      if (dist : ℤ) > thresholdDist then acc
      else
        let similarity : ℚ := 1 - (dist : ℚ) / (HASH_BYTES * 8)
        if threshold ≤ similarity then acc ++ [⟨name, similarity⟩]
        else acc) []

/-- The sort comparator passed to `matches.sort`. -/
def sortCmp (preferSet : Option (List (List Char))) (a b : IconMatch) : ℚ :=
  let simDiff := b.similarity - a.similarity
  if |simDiff| > 1 / 1000 then simDiff
  else
    match preferSet with
    | some ps =>
      let aPreferred := ps.contains (pfxOf a.name)
      let bPreferred := ps.contains (pfxOf b.name)
      if aPreferred && !bPreferred then -1
      else if bPreferred && !aPreferred then 1
      else 0
    | none => 0

/-- `a` may stay before `b` exactly when the comparator is nonpositive. -/
def sortLe (preferSet : Option (List (List Char))) (a b : IconMatch) : Bool :=
  decide (sortCmp preferSet a b ≤ 0)

/-- One step of a stable binary-insertion sort: `x` goes after every `y`
with `le y x` (so ties keep their original relative order). -/
def insertR {α : Type} (le : α → α → Bool) (x : α) : List α → List α
  | [] => [x]
  | y :: ys => if le y x then y :: insertR le x ys else x :: y :: ys

/-- Stable sort by repeated insertion, processing the list left to right. -/
def stableSort {α : Type} (le : α → α → Bool) (l : List α) : List α :=
  l.foldl (fun acc x => insertR le x acc) []

/-- The candidate list accumulated by the scan, with the destructured
defaults and the integer distance threshold
`Math.floor((1 - threshold) * HASH_BYTES * 8)`. -/
def candidateList (inputHash : List Nat) (index : IconIndex)
    (options : MatchOptions) : List IconMatch :=
  scanMatches inputHash index (setOfOpt options.prefixes)
    (Int.floor ((1 - options.threshold) * (HASH_BYTES * 8))) options.threshold

/-- The pure core of `findMatches`: scan, comparator sort, `slice(0, limit)`. -/
def findMatchesCore (inputHash : List Nat) (index : IconIndex)
    (options : MatchOptions) : List IconMatch :=
  (stableSort (sortLe (setOfOpt options.prefer))
    (candidateList inputHash index options)).take options.limit

/-! ### C2: threshold, limit and empty-result guarantees -/

theorem insertR_perm {α : Type} (le : α → α → Bool) (x : α) (l : List α) :
    (insertR le x l).Perm (x :: l) := by
  induction l with
  | nil => exact List.Perm.refl _
  | cons y ys ih =>
    simp only [insertR]
    cases hc : le y x with
    | true =>
      rw [if_pos rfl]
      exact (ih.cons y).trans (List.Perm.swap x y ys)
    | false =>
      rw [if_neg Bool.false_ne_true]

theorem stableSort_perm {α : Type} (le : α → α → Bool) (l : List α) :
    (stableSort le l).Perm l := by
  have gen : ∀ (l : List α) (acc : List α),
      (l.foldl (fun acc x => insertR le x acc) acc).Perm (l ++ acc) := by
    intro l
    induction l with
    | nil => intro acc; exact List.Perm.refl _
    | cons x xs ih =>
      intro acc
      rw [List.foldl_cons]
      refine (ih (insertR le x acc)).trans ?_
      refine ((insertR_perm le x acc).append_left xs).trans ?_
      exact List.perm_middle
  have := gen l []
  rw [List.append_nil] at this
  exact (stableSort.eq_1 le l ▸ this)

theorem foldl_keep_inv {α β : Type} (P : β → Prop) (l : List α)
    (g : List β → α → List β)
    (hstep : ∀ acc a, a ∈ l → (∀ m ∈ acc, P m) → ∀ m ∈ g acc a, P m) :
    ∀ acc, (∀ m ∈ acc, P m) → ∀ m ∈ l.foldl g acc, P m := by
  induction l with
  | nil => intro acc hacc m hm; exact hacc m hm
  | cons x xs ih =>
    intro acc hacc m hm
    rw [List.foldl_cons] at hm
    exact ih (fun acc a ha => hstep acc a (by simp [ha]))
      (g acc x) (hstep acc x (by simp) hacc) m hm

theorem foldl_nil_inv {α β : Type} (l : List α) (g : List β → α → List β)
    (h : ∀ a ∈ l, g [] a = []) : l.foldl g [] = [] := by
  induction l with
  | nil => rfl
  | cons x xs ih =>
    rw [List.foldl_cons, h x (by simp)]
    exact ih (fun a ha => h a (by simp [ha]))

theorem scanMatches_threshold (inputHash : List Nat) (index : IconIndex)
    (prefixSet : Option (List (List Char))) (thresholdDist : ℤ) (threshold : ℚ) :
    ∀ m ∈ scanMatches inputHash index prefixSet thresholdDist threshold,
      threshold ≤ m.similarity := by
  unfold scanMatches
  refine foldl_keep_inv _ _ _ ?_ [] (by simp)
  intro acc i _ hacc m hm
  simp only at hm
  split at hm
  · exact hacc m hm
  · split at hm
    · exact hacc m hm
    · split at hm
      next hsim =>
        rcases List.mem_append.mp hm with h | h
        · exact hacc m h
        · rcases List.mem_singleton.mp h with rfl
          exact hsim
      · exact hacc m hm

/-- C2: every returned match clears the threshold, at most `limit` entries
come back, and when no record clears the threshold the result is the empty
list rather than an error. -/
theorem C2_findMatches_threshold_limit_empty (inputHash : List Nat)
    (index : IconIndex) (options : MatchOptions) :
    (∀ m ∈ findMatchesCore inputHash index options, options.threshold ≤ m.similarity)
      ∧ (findMatchesCore inputHash index options).length ≤ options.limit
      ∧ ((∀ i, i < index.names.length →
            1 - (hammingDistanceAtOffset inputHash index.hashes (i * HASH_BYTES) : ℚ)
              / ((HASH_BYTES : ℚ) * 8) < options.threshold) →
          findMatchesCore inputHash index options = []) := by
  refine ⟨?_, ?_, ?_⟩
  · intro m hm
    have h1 : m ∈ stableSort (sortLe (setOfOpt options.prefer))
        (candidateList inputHash index options) :=
      List.take_subset _ _ hm
    have h2 : m ∈ candidateList inputHash index options :=
      (stableSort_perm _ _).mem_iff.mp h1
    exact scanMatches_threshold inputHash index _ _ _ m h2
  · exact List.length_take_le _ _
  · intro hnone
    have hscan : candidateList inputHash index options = [] := by
      unfold candidateList scanMatches
      apply foldl_nil_inv
      intro i hi
      simp only
      split
      · rfl
      · split
        · rfl
        · rw [if_neg]
          intro hle
          exact absurd hle (not_le.mpr (hnone i (List.mem_range.mp hi)))
    unfold findMatchesCore
    rw [hscan]
    have hempty : stableSort (sortLe (setOfOpt options.prefer)) [] = [] := rfl
    rw [hempty, List.take_nil]

/-- C2 witness: one record at distance 1024 (similarity 0) clears nothing, so
the default-options search returns the empty list; the bounds hold there too. -/
theorem C2_witness :
    (∀ i, i < (IconIndex.mk [['a']] (List.replicate 128 255)).names.length →
        1 - (hammingDistanceAtOffset (List.replicate 128 0)
              (IconIndex.mk [['a']] (List.replicate 128 255)).hashes (i * HASH_BYTES) : ℚ)
            / ((HASH_BYTES : ℚ) * 8) < ({} : MatchOptions).threshold)
    ∧ (∀ m ∈ findMatchesCore (List.replicate 128 0)
          (IconIndex.mk [['a']] (List.replicate 128 255)) {},
        ({} : MatchOptions).threshold ≤ m.similarity)
    ∧ (findMatchesCore (List.replicate 128 0)
        (IconIndex.mk [['a']] (List.replicate 128 255)) {}).length ≤ ({} : MatchOptions).limit
    ∧ findMatchesCore (List.replicate 128 0)
        (IconIndex.mk [['a']] (List.replicate 128 255)) {} = [] := by
  have hd : hammingDistanceAtOffset (List.replicate 128 0) (List.replicate 128 255)
      (0 * HASH_BYTES) = 1024 := by decide
  have hant : ∀ i, i < (IconIndex.mk [['a']] (List.replicate 128 255)).names.length →
      1 - (hammingDistanceAtOffset (List.replicate 128 0)
            (IconIndex.mk [['a']] (List.replicate 128 255)).hashes (i * HASH_BYTES) : ℚ)
          / ((HASH_BYTES : ℚ) * 8) < ({} : MatchOptions).threshold := by
    intro i hi
    have hi0 : i = 0 := by simpa using hi
    subst hi0
    show (1 : ℚ) - (hammingDistanceAtOffset (List.replicate 128 0)
        (List.replicate 128 255) (0 * HASH_BYTES) : ℚ) / ((HASH_BYTES : ℚ) * 8) < 8 / 10
    rw [hd]
    norm_num [HASH_BYTES]
  have hthm := C2_findMatches_threshold_limit_empty (List.replicate 128 0)
    (IconIndex.mk [['a']] (List.replicate 128 255)) {}
  exact ⟨hant, hthm.1, hthm.2.1, hthm.2.2 hant⟩

/-! ### C5: result ordering, preference tie-break, stability -/

/-- Whether a match's prefix is in the `prefer` set (`false` when unset). -/
def isPreferredBy (ps : Option (List (List Char))) (m : IconMatch) : Bool :=
  match ps with
  | some l => l.contains (pfxOf m.name)
  | none => false

/-- The comparator, written uniformly through `isPreferredBy`. -/
theorem sortCmp_eq (ps : Option (List (List Char))) (a b : IconMatch) :
    sortCmp ps a b =
      if |b.similarity - a.similarity| > 1 / 1000 then b.similarity - a.similarity
      else if isPreferredBy ps a && !isPreferredBy ps b then -1
      else if isPreferredBy ps b && !isPreferredBy ps a then 1
      else 0 := by
  unfold sortCmp isPreferredBy
  cases ps with
  | none => simp
  | some l => rfl

/-- The comparator is antisymmetric. -/
theorem sortCmp_neg (ps : Option (List (List Char))) (a b : IconMatch) :
    sortCmp ps b a = - sortCmp ps a b := by
  rw [sortCmp_eq, sortCmp_eq, abs_sub_comm]
  by_cases hfar : |b.similarity - a.similarity| > 1 / 1000
  · rw [if_pos hfar, if_pos hfar]; ring
  · rw [if_neg hfar, if_neg hfar]
    cases ha : isPreferredBy ps a <;> cases hb : isPreferredBy ps b <;> norm_num

/-- The induced relation is total. -/
theorem sortLe_total (ps : Option (List (List Char))) (a b : IconMatch) :
    sortLe ps a b = true ∨ sortLe ps b a = true := by
  unfold sortLe
  by_cases h : sortCmp ps a b ≤ 0
  · left; exact decide_eq_true h
  · right
    apply decide_eq_true
    rw [sortCmp_neg]
    linarith [not_le.mp h]

theorem tieval (p q : Bool) :
    ((if p && !q then (-1 : ℚ) else if q && !p then 1 else 0) ≤ 0)
      ↔ ¬(q = true ∧ p = false) := by
  cases p <;> cases q <;> norm_num

theorem gap_extract (u v : ℚ) (hf : |u - v| > 1 / 1000) (hle : v - u ≤ 0) :
    v + 1 / 1000 < u := by
  rcases abs_choice (u - v) with h | h <;> linarith

/-- Under exact-or-separated similarities the induced relation is transitive. -/
theorem sortLe_trans (ps : Option (List (List Char))) (a b c : IconMatch)
    (hab : a.similarity = b.similarity ∨ |a.similarity - b.similarity| > 1 / 1000)
    (hbc : b.similarity = c.similarity ∨ |b.similarity - c.similarity| > 1 / 1000)
    (h1 : sortLe ps a b = true) (h2 : sortLe ps b c = true) :
    sortLe ps a c = true := by
  unfold sortLe at h1 h2 ⊢
  rw [decide_eq_true_eq] at h1 h2
  apply decide_eq_true
  rw [sortCmp_eq] at h1 h2 ⊢
  rcases hab with hab | hab <;> rcases hbc with hbc | hbc
  · -- both ties are exact
    rw [if_neg (by rw [hab, sub_self, abs_zero]; norm_num)] at h1
    rw [if_neg (by rw [hbc, sub_self, abs_zero]; norm_num)] at h2
    rw [if_neg (by rw [hab, hbc, sub_self, abs_zero]; norm_num)]
    rw [tieval] at h1 h2 ⊢
    rintro ⟨hc, ha⟩
    cases hPb : isPreferredBy ps b with
    | false => exact h2 ⟨hc, hPb⟩
    | true => exact h1 ⟨hPb, ha⟩
  · -- a = b, c strictly below b
    rw [if_pos (by rw [abs_sub_comm]; exact hbc)] at h2
    have hcb : c.similarity + 1 / 1000 < b.similarity := gap_extract _ _ hbc h2
    have hgap : |c.similarity - a.similarity| > 1 / 1000 := by
      rw [abs_sub_comm, abs_of_pos (by rw [hab]; linarith)]
      rw [hab]; linarith
    rw [if_pos hgap]
    rw [hab]; linarith
  · -- b = c, b strictly below a
    rw [if_pos (by rw [abs_sub_comm]; exact hab)] at h1
    have hba : b.similarity + 1 / 1000 < a.similarity := gap_extract _ _ hab h1
    have hgap : |c.similarity - a.similarity| > 1 / 1000 := by
      rw [abs_sub_comm, abs_of_pos (by rw [← hbc]; linarith)]
      rw [← hbc]; linarith
    rw [if_pos hgap]
    rw [← hbc]; linarith
  · -- both strict gaps
    rw [if_pos (by rw [abs_sub_comm]; exact hab)] at h1
    rw [if_pos (by rw [abs_sub_comm]; exact hbc)] at h2
    have hba : b.similarity + 1 / 1000 < a.similarity := gap_extract _ _ hab h1
    have hcb : c.similarity + 1 / 1000 < b.similarity := gap_extract _ _ hbc h2
    have hgap : |c.similarity - a.similarity| > 1 / 1000 := by
      rw [abs_sub_comm, abs_of_pos (by linarith)]
      linarith
    rw [if_pos hgap]
    linarith

/-- Two candidates with equal similarity and equal preference flag compare
as an exact tie. -/
theorem sortLe_tie (ps : Option (List (List Char))) (a b : IconMatch)
    (hsim : a.similarity = b.similarity)
    (hpref : isPreferredBy ps a = isPreferredBy ps b) :
    sortLe ps a b = true := by
  unfold sortLe
  apply decide_eq_true
  rw [sortCmp_eq]
  rw [if_neg (by rw [hsim, sub_self, abs_zero]; norm_num), hpref]
  cases isPreferredBy ps b <;> norm_num

/-- `insertR` places `x` after the maximal prefix of elements `y` with `le y x`. -/
theorem insertR_eq_takeWhile {α : Type} (le : α → α → Bool) (x : α) (l : List α) :
    insertR le x l
      = l.takeWhile (fun y => le y x) ++ x :: l.dropWhile (fun y => le y x) := by
  induction l with
  | nil => rfl
  | cons y ys ih =>
    simp only [insertR, List.takeWhile_cons, List.dropWhile_cons]
    cases hc : le y x with
    | true => simp [ih]
    | false => simp

theorem dropWhile_head_false {α : Type} (p : α → Bool) (l : List α) (z : α) (zs : List α)
    (h : l.dropWhile p = z :: zs) : p z = false := by
  induction l with
  | nil => simp at h
  | cons y ys ih =>
    rw [List.dropWhile_cons] at h
    by_cases hp : p y = true
    · exact ih (by rwa [if_pos hp] at h)
    · rw [if_neg hp] at h
      cases h
      exact Bool.not_eq_true _ ▸ (by simpa using hp)

/-- Inserting into a sorted list keeps it sorted, given totality with `x` and
transitivity through `x` over the list's elements. -/
theorem insertR_sorted {α : Type} (le : α → α → Bool) (x : α) (l : List α)
    (hsort : l.Pairwise (fun a b => le a b = true))
    (htotal : ∀ y ∈ l, le y x = true ∨ le x y = true)
    (htrans : ∀ y ∈ l, ∀ z ∈ l, le x y = true → le y z = true → le x z = true) :
    (insertR le x l).Pairwise (fun a b => le a b = true) := by
  induction l with
  | nil => simp [insertR]
  | cons y ys ih =>
    rw [List.pairwise_cons] at hsort
    simp only [insertR]
    cases hc : le y x with
    | true =>
      rw [if_pos rfl, List.pairwise_cons]
      constructor
      · intro z hz
        rcases List.mem_cons.mp ((insertR_perm le x ys).mem_iff.mp hz) with h | h
        · subst h; exact hc
        · exact hsort.1 z h
      · exact ih hsort.2 (fun z hz => htotal z (by simp [hz]))
          (fun z hz w hw h1 h2 => htrans z (by simp [hz]) w (by simp [hw]) h1 h2)
    | false =>
      rw [if_neg Bool.false_ne_true, List.pairwise_cons]
      have hxy : le x y = true := by
        rcases htotal y (by simp) with h | h
        · rw [hc] at h; exact absurd h Bool.false_ne_true
        · exact h
      constructor
      · intro z hz
        rcases List.mem_cons.mp hz with h | h
        · subst h; exact hxy
        · exact htrans y (by simp) z (by simp [h]) hxy (hsort.1 z h)
      · rw [List.pairwise_cons]
        exact ⟨hsort.1, hsort.2⟩

/-- Inserting an element outside the class leaves the class subsequence alone. -/
theorem insertR_filter_neg {α : Type} (le : α → α → Bool) (x : α) (l : List α)
    (q : α → Bool) (hqx : q x = false) :
    (insertR le x l).filter q = l.filter q := by
  rw [insertR_eq_takeWhile, List.filter_append, List.filter_cons, hqx]
  rw [if_neg Bool.false_ne_true, ← List.filter_append, List.takeWhile_append_dropWhile]

/-- Inserting a class member appends it at the end of the class subsequence
(for a sorted list whose class members all sort before `x`). -/
theorem insertR_filter_pos {α : Type} (le : α → α → Bool) (x : α) (l : List α)
    (q : α → Bool) (hqx : q x = true)
    (hsort : l.Pairwise (fun a b => le a b = true))
    (hclass : ∀ z ∈ l, q z = true → le z x = true)
    (htrans : ∀ y ∈ l, ∀ z ∈ l, le y z = true → le z x = true → le y x = true) :
    (insertR le x l).filter q = l.filter q ++ [x] := by
  rw [insertR_eq_takeWhile, List.filter_append, List.filter_cons, hqx, if_pos rfl]
  have hdrop : (l.dropWhile (fun y => le y x)).filter q = [] := by
    rw [List.filter_eq_nil_iff]
    intro z hz hqz
    cases hd : l.dropWhile (fun y => le y x) with
    | nil => rw [hd] at hz; simp at hz
    | cons z0 zs =>
      rw [hd] at hz
      have hz0 : le z0 x = false := dropWhile_head_false _ l z0 zs hd
      have hsubl : (z0 :: zs).Pairwise (fun a b => le a b = true) := by
        rw [← hd]
        exact hsort.sublist (List.dropWhile_sublist _)
      have hmemz : z ∈ l := (List.dropWhile_sublist (l := l)
        (p := fun y => le y x)).mem (hd ▸ hz)
      rcases List.mem_cons.mp hz with h | h
      · subst h
        rw [hclass z hmemz hqz] at hz0
        exact absurd hz0 (by simp)
      · have hmemz0 : z0 ∈ l := (List.dropWhile_sublist (l := l)
          (p := fun y => le y x)).mem (hd ▸ List.mem_cons_self z0 zs)
        have hle0z : le z0 z = true := (List.pairwise_cons.mp hsubl).1 z h
        have : le z0 x = true :=
          htrans z0 hmemz0 z hmemz hle0z (hclass z hmemz hqz)
        rw [this] at hz0
        exact absurd hz0 (by simp)
  rw [hdrop]
  have : (l.takeWhile (fun y => le y x)).filter q ++ [x]
      = (l.takeWhile (fun y => le y x)).filter q
        ++ (l.dropWhile (fun y => le y x)).filter q ++ [x] := by
    rw [hdrop, List.append_nil]
  rw [this, ← List.filter_append, List.takeWhile_append_dropWhile]

/-- Insertion-sorting a list drawn from `l0` yields a sorted result whose
class subsequences (under any mutually-tied class predicate `q`) appear in the
original processing order. -/
theorem stableSort_master {α : Type} (l0 : List α) (le : α → α → Bool) (q : α → Bool)
    (htotal : ∀ a ∈ l0, ∀ b ∈ l0, le a b = true ∨ le b a = true)
    (htrans : ∀ a ∈ l0, ∀ b ∈ l0, ∀ c ∈ l0,
      le a b = true → le b c = true → le a c = true)
    (hclassle : ∀ a ∈ l0, ∀ b ∈ l0, q a = true → q b = true → le a b = true) :
    ∀ (rest acc : List α), (∀ a ∈ rest, a ∈ l0) → (∀ a ∈ acc, a ∈ l0) →
      acc.Pairwise (fun a b => le a b = true) →
      (rest.foldl (fun acc x => insertR le x acc) acc).Pairwise
          (fun a b => le a b = true)
        ∧ (∀ a ∈ rest.foldl (fun acc x => insertR le x acc) acc, a ∈ l0)
        ∧ (rest.foldl (fun acc x => insertR le x acc) acc).filter q
            = acc.filter q ++ rest.filter q := by
  intro rest
  induction rest with
  | nil =>
    intro acc _ hacc hsort
    exact ⟨hsort, hacc, by simp⟩
  | cons x xs ih =>
    intro acc hr hacc hsort
    rw [List.foldl_cons]
    have hx : x ∈ l0 := hr x (by simp)
    have hacc' : ∀ a ∈ insertR le x acc, a ∈ l0 := by
      intro a ha
      rcases List.mem_cons.mp ((insertR_perm le x acc).mem_iff.mp ha) with h | h
      · subst h; exact hx
      · exact hacc a h
    have hsort' : (insertR le x acc).Pairwise (fun a b => le a b = true) :=
      insertR_sorted le x acc hsort
        (fun y hy => htotal y (hacc y hy) x hx)
        (fun y hy z hz h1 h2 => htrans x hx y (hacc y hy) z (hacc z hz) h1 h2)
    have hrest' : ∀ a ∈ xs, a ∈ l0 := fun a ha => hr a (by simp [ha])
    obtain ⟨s1, s2, s3⟩ := ih (insertR le x acc) hrest' hacc' hsort'
    refine ⟨s1, s2, ?_⟩
    rw [s3, List.filter_cons]
    cases hqx : q x with
    | true =>
      rw [insertR_filter_pos le x acc q hqx hsort
        (fun z hz hqz => hclassle z (hacc z hz) x hx hqz hqx)
        (fun y hy z hz h1 h2 => htrans y (hacc y hy) z (hacc z hz) x hx h1 h2)]
      rw [if_pos rfl]
      simp
    | false =>
      rw [insertR_filter_neg le x acc q hqx, if_neg Bool.false_ne_true]

/-- Decoding `sortLe` semantically, under an exact-or-separated pair. -/
theorem sortLe_semantic (ps : Option (List (List Char))) (a b : IconMatch)
    (hpair : a.similarity = b.similarity ∨ |a.similarity - b.similarity| > 1 / 1000)
    (hle : sortLe ps a b = true) :
    b.similarity < a.similarity
      ∨ (b.similarity = a.similarity
          ∧ ¬(isPreferredBy ps b = true ∧ isPreferredBy ps a = false)) := by
  unfold sortLe at hle
  rw [decide_eq_true_eq, sortCmp_eq] at hle
  rcases hpair with h | h
  · right
    rw [if_neg (by rw [h, sub_self, abs_zero]; norm_num), tieval] at hle
    exact ⟨h.symm, hle⟩
  · left
    rw [if_pos (by rwa [abs_sub_comm])] at hle
    have := gap_extract _ _ h hle
    linarith

/-- C5 (amended): the 0.001 tie relation is not transitive, so the global
ordering claim fails in general (see the counterexample); it holds whenever
every pair of scanned candidates has exactly equal or more-than-0.001-apart
similarities.  Under that hypothesis the returned sequence is ordered by
similarity descending with ties broken in favour of `prefer`-listed prefixes,
and the sort is stable: each class of tied, equally-preferred candidates
appears in the original index-scan order. -/
theorem C5_sorted_prefer_stable (inputHash : List Nat) (index : IconIndex)
    (options : MatchOptions)
    (H : ∀ a ∈ candidateList inputHash index options,
         ∀ b ∈ candidateList inputHash index options,
           a.similarity = b.similarity ∨ |a.similarity - b.similarity| > 1 / 1000) :
    (findMatchesCore inputHash index options).Pairwise (fun a b =>
        b.similarity < a.similarity
        ∨ (b.similarity = a.similarity
            ∧ ¬(isPreferredBy (setOfOpt options.prefer) b = true
                ∧ isPreferredBy (setOfOpt options.prefer) a = false)))
    ∧ ∀ s : ℚ, ∀ p : Bool,
        (stableSort (sortLe (setOfOpt options.prefer))
            (candidateList inputHash index options)).filter
          (fun m => decide (m.similarity = s)
            && (isPreferredBy (setOfOpt options.prefer) m == p))
        = (candidateList inputHash index options).filter
          (fun m => decide (m.similarity = s)
            && (isPreferredBy (setOfOpt options.prefer) m == p)) := by
  have htotal : ∀ a ∈ candidateList inputHash index options,
      ∀ b ∈ candidateList inputHash index options,
        sortLe (setOfOpt options.prefer) a b = true
          ∨ sortLe (setOfOpt options.prefer) b a = true :=
    fun a _ b _ => sortLe_total _ a b
  have htrans : ∀ a ∈ candidateList inputHash index options,
      ∀ b ∈ candidateList inputHash index options,
      ∀ c ∈ candidateList inputHash index options,
        sortLe (setOfOpt options.prefer) a b = true →
        sortLe (setOfOpt options.prefer) b c = true →
        sortLe (setOfOpt options.prefer) a c = true :=
    fun a ha b hb c hc h1 h2 =>
      sortLe_trans _ a b c (H a ha b hb) (H b hb c hc) h1 h2
  constructor
  · -- ordering of the returned matches
    have hmaster := stableSort_master (candidateList inputHash index options)
      (sortLe (setOfOpt options.prefer)) (fun _ => false) htotal htrans
      (by intro a _ b _ hqa _; exact absurd hqa (by simp))
      (candidateList inputHash index options) [] (fun a ha => ha) (by simp)
      (by simp)
    have hsorted : (stableSort (sortLe (setOfOpt options.prefer))
        (candidateList inputHash index options)).Pairwise
          (fun a b => sortLe (setOfOpt options.prefer) a b = true) := hmaster.1
    have htake : (findMatchesCore inputHash index options).Pairwise
        (fun a b => sortLe (setOfOpt options.prefer) a b = true) := by
      unfold findMatchesCore
      exact hsorted.sublist (List.take_sublist _ _)
    have hsub : ∀ m ∈ findMatchesCore inputHash index options,
        m ∈ candidateList inputHash index options := by
      intro m hm
      have h1 : m ∈ stableSort (sortLe (setOfOpt options.prefer))
          (candidateList inputHash index options) := List.take_subset _ _ hm
      exact (stableSort_perm _ _).mem_iff.mp h1
    refine htake.imp_of_mem ?_
    intro a b ha hb hle
    exact sortLe_semantic _ a b (H a (hsub a ha) b (hsub b hb)) hle
  · -- stability of each tied class
    intro s p
    have hmaster := stableSort_master (candidateList inputHash index options)
      (sortLe (setOfOpt options.prefer))
      (fun m => decide (m.similarity = s)
        && (isPreferredBy (setOfOpt options.prefer) m == p))
      htotal htrans
      (by
        intro a _ b _ hqa hqb
        rw [Bool.and_eq_true, decide_eq_true_eq, beq_iff_eq] at hqa hqb
        exact sortLe_tie _ a b (hqa.1.trans hqb.1.symm) (hqa.2.trans hqb.2.symm))
      (candidateList inputHash index options) [] (fun a ha => ha) (by simp)
      (by simp)
    have := hmaster.2.2
    rw [List.filter_nil, List.nil_append] at this
    exact this

/-- Index for the C5 counterexample: record 0 at distance 1, record 1 at
distance 0, record 2 at distance 2 from the all-zero query; record 2 is the
only one with the preferred prefix `p`. -/
def exIndex : IconIndex :=
  ⟨[['x', ':', 'c'], ['x', ':', 'a'], ['p', ':', 'b']],
    [1] ++ List.replicate 127 0 ++ List.replicate 128 0 ++ [3] ++ List.replicate 127 0⟩

def exOpts : MatchOptions := { prefer := some [['p']] }

def exQuery : List Nat := List.replicate 128 0

theorem exd0 : hammingDistanceAtOffset exQuery exIndex.hashes (0 * HASH_BYTES) = 1 := by
  decide

theorem exd1 : hammingDistanceAtOffset exQuery exIndex.hashes (1 * HASH_BYTES) = 0 := by
  decide

theorem exd2 : hammingDistanceAtOffset exQuery exIndex.hashes (2 * HASH_BYTES) = 2 := by
  decide

theorem excand : candidateList exQuery exIndex exOpts
    = [⟨['x', ':', 'c'], 1 - (1 : ℚ) / 1024⟩, ⟨['x', ':', 'a'], 1⟩,
       ⟨['p', ':', 'b'], 1 - (2 : ℚ) / 1024⟩] := by
  unfold candidateList scanMatches
  rw [show exOpts.threshold = (8 : ℚ) / 10 from rfl]
  rw [show setOfOpt exOpts.prefixes = none from rfl]
  rw [show exIndex.names.length = 3 from rfl]
  rw [show List.range 3 = [0, 1, 2] from rfl]
  rw [show Int.floor ((1 - (8 : ℚ) / 10) * ((HASH_BYTES : ℚ) * 8)) = 204 by
    norm_num [HASH_BYTES]]
  simp only [List.foldl_cons, List.foldl_nil, exd0, exd1, exd2]
  norm_num [HASH_BYTES]
  constructor
  · rfl
  constructor
  · rfl
  rfl

theorem exle1 : sortLe (setOfOpt exOpts.prefer)
    ⟨['x', ':', 'c'], 1 - (1 : ℚ) / 1024⟩ ⟨['x', ':', 'a'], (1 : ℚ)⟩ = true := by
  unfold sortLe sortCmp
  rw [show setOfOpt exOpts.prefer = some [['p']] from rfl]
  have habs : |(1 : ℚ) / 1024| = 1 / 1024 := by
    rw [abs_of_pos]; norm_num
  have hpx : (['x'] : List Char) ≠ ['p'] := by decide
  norm_num [pfxOf, habs,
    show List.takeWhile (fun c => !decide (c = ':')) ['x', ':', 'c'] = ['x'] from rfl,
    show List.takeWhile (fun c => !decide (c = ':')) ['x', ':', 'a'] = ['x'] from rfl,
    hpx]

theorem exle2 : sortLe (setOfOpt exOpts.prefer)
    ⟨['x', ':', 'c'], 1 - (1 : ℚ) / 1024⟩ ⟨['p', ':', 'b'], 1 - (2 : ℚ) / 1024⟩
      = false := by
  unfold sortLe sortCmp
  rw [show setOfOpt exOpts.prefer = some [['p']] from rfl]
  have habs : |(1 : ℚ) / 1024| = 1 / 1024 := by
    rw [abs_of_pos]; norm_num
  have hpx : (['x'] : List Char) ≠ ['p'] := by decide
  norm_num [pfxOf, habs,
    show List.takeWhile (fun c => !decide (c = ':')) ['x', ':', 'c'] = ['x'] from rfl,
    show List.takeWhile (fun c => !decide (c = ':')) ['p', ':', 'b'] = ['p'] from rfl,
    hpx]

theorem exsort : findMatchesCore exQuery exIndex exOpts
    = [⟨['p', ':', 'b'], 1 - (2 : ℚ) / 1024⟩, ⟨['x', ':', 'c'], 1 - (1 : ℚ) / 1024⟩,
       ⟨['x', ':', 'a'], (1 : ℚ)⟩] := by
  unfold findMatchesCore
  rw [excand]
  rw [show exOpts.limit = 10 from rfl]
  unfold stableSort
  simp only [List.foldl_cons, List.foldl_nil]
  simp only [insertR, exle1, exle2, if_true, Bool.false_eq_true, if_false]
  rfl

/-- C5 counterexample: with chained 0.001-near-ties and a preferred prefix,
the returned sequence puts the record with similarity `1 - 2/1024` first and
the record with similarity `1` last — the pair at positions 0 and 2 differs
by more than 0.001 with the strictly better candidate later, so the output is
not sorted by similarity descending up to the epsilon band. -/
theorem C5_counterexample :
    (findMatchesCore exQuery exIndex exOpts).map IconMatch.name
        = [['p', ':', 'b'], ['x', ':', 'c'], ['x', ':', 'a']]
    ∧ 2 < (findMatchesCore exQuery exIndex exOpts).length
    ∧ ((findMatchesCore exQuery exIndex exOpts).getD 0 default).similarity + 1 / 1000
        < ((findMatchesCore exQuery exIndex exOpts).getD 2 default).similarity := by
  rw [exsort]
  refine ⟨rfl, by norm_num, ?_⟩
  simp only [List.getD_cons_zero, List.getD_cons_succ]
  norm_num

theorem c5wd : hammingDistanceAtOffset (List.replicate 128 0)
    (List.replicate 128 0) (0 * HASH_BYTES) = 0 := by decide

theorem c5wcand : candidateList (List.replicate 128 0)
    (IconIndex.mk [['a']] (List.replicate 128 0)) {}
    = [⟨['a'], 1⟩] := by
  unfold candidateList scanMatches
  rw [show ({} : MatchOptions).threshold = (8 : ℚ) / 10 from rfl]
  rw [show setOfOpt ({} : MatchOptions).prefixes = none from rfl]
  rw [show (IconIndex.mk [['a']] (List.replicate 128 0)).names.length = 1 from rfl]
  rw [show List.range 1 = [0] from rfl]
  rw [show Int.floor ((1 - (8 : ℚ) / 10) * ((HASH_BYTES : ℚ) * 8)) = 204 by
    norm_num [HASH_BYTES]]
  simp only [List.foldl_cons, List.foldl_nil, c5wd]
  norm_num [HASH_BYTES]

/-- C5 witness: a one-record index trivially satisfies the exact-or-separated
hypothesis, and the amended theorem applies. -/
theorem C5_witness :
    (∀ a ∈ candidateList (List.replicate 128 0)
        (IconIndex.mk [['a']] (List.replicate 128 0)) {},
     ∀ b ∈ candidateList (List.replicate 128 0)
        (IconIndex.mk [['a']] (List.replicate 128 0)) {},
       a.similarity = b.similarity ∨ |a.similarity - b.similarity| > 1 / 1000)
    ∧ ((findMatchesCore (List.replicate 128 0)
          (IconIndex.mk [['a']] (List.replicate 128 0)) {}).Pairwise (fun a b =>
          b.similarity < a.similarity
          ∨ (b.similarity = a.similarity
              ∧ ¬(isPreferredBy (setOfOpt ({} : MatchOptions).prefer) b = true
                  ∧ isPreferredBy (setOfOpt ({} : MatchOptions).prefer) a = false)))
        ∧ ∀ s : ℚ, ∀ p : Bool,
            (stableSort (sortLe (setOfOpt ({} : MatchOptions).prefer))
                (candidateList (List.replicate 128 0)
                  (IconIndex.mk [['a']] (List.replicate 128 0)) {})).filter
              (fun m => decide (m.similarity = s)
                && (isPreferredBy (setOfOpt ({} : MatchOptions).prefer) m == p))
            = (candidateList (List.replicate 128 0)
                  (IconIndex.mk [['a']] (List.replicate 128 0)) {}).filter
              (fun m => decide (m.similarity = s)
                && (isPreferredBy (setOfOpt ({} : MatchOptions).prefer) m == p))) := by
  have hH : ∀ a ∈ candidateList (List.replicate 128 0)
      (IconIndex.mk [['a']] (List.replicate 128 0)) {},
      ∀ b ∈ candidateList (List.replicate 128 0)
        (IconIndex.mk [['a']] (List.replicate 128 0)) {},
        a.similarity = b.similarity ∨ |a.similarity - b.similarity| > 1 / 1000 := by
    rw [c5wcand]
    intro a ha b hb
    rcases List.mem_singleton.mp ha with rfl
    rcases List.mem_singleton.mp hb with rfl
    exact Or.inl rfl
  exact ⟨hH, C5_sorted_prefer_stable (List.replicate 128 0)
    (IconIndex.mk [['a']] (List.replicate 128 0)) {} hH⟩

/-! ### Fingerprint codec: difference-hash extraction
(src/index.ts `computeHashFromPixels`) -/

/-- The mutable state of the packing loop: the output buffer, the next byte
slot, the byte being accumulated and the count of bits already in it. -/
structure HState where
  hash : List Nat
  byteIndex : Nat
  byte : Nat
  bitInByte : Nat

/-- One iteration of the inner loop body: compare pixel `(x, y)` with its
right neighbour, or the bit into the current byte (`byte |= 128 >> bitInByte`),
and flush the byte every 8 bits (`hash[byteIndex++] = byte`).  A write at
`byteIndex ≥ 128` is a silent no-op on a `Buffer`, as is `List.set` past the
end. -/
def hStep (data : List Nat) (rowWidth y x : Nat) (st : HState) : HState :=
  let b := if data.getD (y * rowWidth + x) 0 < data.getD (y * rowWidth + x + 1) 0
    then st.byte ||| (128 >>> st.bitInByte) else st.byte
  if st.bitInByte + 1 = 8 then
    ⟨st.hash.set st.byteIndex b, st.byteIndex + 1, 0, 0⟩
  else
    ⟨st.hash, st.byteIndex, b, st.bitInByte + 1⟩

/-- `computeHashFromPixels(data, size, rowWidth)` : `Buffer.alloc(HASH_BYTES)`
then the row-major double loop (`y` outer, `x` inner) of `hStep`. -/
def computeHashFromPixels (data : List Nat) (size rowWidth : Nat) : List Nat :=
  ((List.range size).foldl (fun st y =>
      (List.range size).foldl (fun st x => hStep data rowWidth y x st) st)
    ⟨List.replicate HASH_BYTES 0, 0, 0, 0⟩).hash

/-- The difference condition for flattened bit index `k`: pixel
`(k % size, k / size)` is strictly darker than its right neighbour. -/
def bitCond (data : List Nat) (size rowWidth k : Nat) : Prop :=
  data.getD ((k / size) * rowWidth + k % size) 0
    < data.getD ((k / size) * rowWidth + k % size + 1) 0

/-- Loop invariant after processing `n` flattened bit positions. -/
def HInv (data : List Nat) (size rowWidth n : Nat) (st : HState) : Prop :=
  st.byteIndex = n / 8 ∧ st.bitInByte = n % 8 ∧ st.hash.length = 128
    ∧ st.byte < 256
    ∧ (∀ r, r < 8 - n % 8 → st.byte.testBit r = false)
    ∧ (∀ s, s < n % 8 →
        (st.byte.testBit (7 - s) = true ↔ bitCond data size rowWidth (n - n % 8 + s)))
    ∧ (∀ j s, j < n / 8 → j < 128 → s < 8 →
        ((st.hash.getD j 0).testBit (7 - s) = true ↔ bitCond data size rowWidth (8 * j + s)))

theorem shift128 : ∀ t, t < 8 → (128 : Nat) >>> t = 2 ^ (7 - t) := by decide

theorem getD_set_self_nat (l : List Nat) (i : Nat) (v : Nat) (h : i < l.length) :
    (l.set i v).getD i 0 = v := by
  rw [List.getD_eq_getElem?_getD, List.getElem?_set_self (by simpa using h)]
  rfl

theorem getD_set_ne_nat (l : List Nat) (i j : Nat) (v : Nat) (h : i ≠ j) :
    (l.set i v).getD j 0 = l.getD j 0 := by
  rw [List.getD_eq_getElem?_getD, List.getElem?_set_ne h, ← List.getD_eq_getElem?_getD]

theorem newByte_facts (byte t : Nat) (ht : t < 8) (hlt : byte < 256)
    (hlow : ∀ r, r < 8 - t → byte.testBit r = false) (c : Prop) [Decidable c] :
    (if c then byte ||| (128 >>> t) else byte) < 256
    ∧ (∀ r, r < 8 - (t + 1) →
        (if c then byte ||| (128 >>> t) else byte).testBit r = false)
    ∧ (∀ s, s < t → ((if c then byte ||| (128 >>> t) else byte).testBit (7 - s)
        = byte.testBit (7 - s)))
    ∧ (((if c then byte ||| (128 >>> t) else byte).testBit (7 - t) = true) ↔ c) := by
  rw [shift128 t ht]
  by_cases hc : c
  · simp only [if_pos hc]
    refine ⟨?_, ?_, ?_, ?_⟩
    · have h256 : (256 : Nat) = 2 ^ 8 := by norm_num
      rw [h256]
      exact Nat.or_lt_two_pow (h256 ▸ hlt)
        (Nat.pow_lt_pow_right (by norm_num) (by omega))
    · intro r hr
      rw [Nat.testBit_lor, hlow r (by omega),
        Nat.testBit_two_pow_of_ne (by omega)]
      rfl
    · intro s hs
      rw [Nat.testBit_lor, Nat.testBit_two_pow_of_ne (by omega)]
      simp
    · rw [Nat.testBit_lor, hlow (7 - t) (by omega), Nat.testBit_two_pow_self]
      simp [hc]
  · simp only [if_neg hc]
    refine ⟨hlt, fun r hr => hlow r (by omega), fun s _ => by trivial, ?_⟩
    rw [hlow (7 - t) (by omega)]
    simp [hc]

theorem hStep_inv (data : List Nat) (size rowWidth y x n : Nat) (st : HState)
    (hx : x < size) (hn : n = y * size + x)
    (hinv : HInv data size rowWidth n st) :
    HInv data size rowWidth (n + 1) (hStep data rowWidth y x st) := by
  obtain ⟨hbi, hbit, hlen, hblt, hlow, hpart, hhash⟩ := hinv
  have hsize : 0 < size := by omega
  have hdiv : n / size = y := by
    rw [hn, Nat.mul_comm, Nat.mul_add_div hsize, Nat.div_eq_of_lt hx]
    omega
  have hmod : n % size = x := by
    rw [hn, Nat.mul_comm, Nat.mul_add_mod, Nat.mod_eq_of_lt hx]
  have hcond : (data.getD (y * rowWidth + x) 0 < data.getD (y * rowWidth + x + 1) 0)
      ↔ bitCond data size rowWidth n := by
    unfold bitCond
    rw [hdiv, hmod]
  have ht8 : n % 8 < 8 := Nat.mod_lt _ (by norm_num)
  have hnb := newByte_facts st.byte (n % 8) ht8 hblt hlow
    (data.getD (y * rowWidth + x) 0 < data.getD (y * rowWidth + x + 1) 0)
  unfold hStep
  rw [hbit]
  by_cases hflush : n % 8 + 1 = 8
  · -- flush: the byte is complete and written out
    rw [if_pos hflush]
    have h7 : n % 8 = 7 := by omega
    refine ⟨by dsimp only; omega, by dsimp only; omega,
      by dsimp only; simp [hlen], by dsimp only; norm_num,
      by dsimp only; simp, by intro s hs; exact absurd hs (by omega), ?_⟩
    intro j s hj hj128 hs
    dsimp only at hj ⊢
    by_cases hjeq : j = n / 8
    · subst hjeq
      rw [hbi, getD_set_self_nat _ _ _ (by rw [hlen]; omega)]
      by_cases hs7 : s = 7
      · subst hs7
        rw [show (8 : Nat) * (n / 8) + 7 = n from by omega]
        rw [show (7 : Nat) - 7 = 7 - n % 8 from by omega]
        exact hnb.2.2.2.trans hcond
      · rw [hnb.2.2.1 s (by omega), hpart s (by omega)]
        rw [show n - n % 8 + s = 8 * (n / 8) + s from by omega]
    · rw [hbi, getD_set_ne_nat _ _ _ _ (fun h => hjeq h.symm)]
      exact hhash j s (by omega) hj128 hs
  · -- no flush: keep accumulating into the current byte
    rw [if_neg hflush]
    have hmod1 : (n + 1) % 8 = n % 8 + 1 := by omega
    have hdiv1 : (n + 1) / 8 = n / 8 := by omega
    refine ⟨by simpa using hbi.trans hdiv1.symm, by simp [hmod1],
      by simp [hlen], by simpa using hnb.1, ?_, ?_, ?_⟩
    · intro r hr
      simp only
      exact hnb.2.1 r (by omega)
    · intro s hs
      simp only
      rw [hmod1] at hs
      by_cases hst : s = n % 8
      · subst hst
        rw [show n + 1 - (n + 1) % 8 + n % 8 = n from by omega]
        exact hnb.2.2.2.trans hcond
      · rw [hnb.2.2.1 s (by omega), hpart s (by omega) ]
        rw [show n + 1 - (n + 1) % 8 + s = n - n % 8 + s from by omega]
    · intro j s hj hj128 hs
      simp only
      rw [hdiv1] at hj
      exact hhash j s hj hj128 hs

theorem foldl_range_inv {β : Type} (n : Nat) (g : β → Nat → β) (P : Nat → β → Prop)
    (step : ∀ i st, i < n → P i st → P (i + 1) (g st i)) :
    ∀ st, P 0 st → P n ((List.range n).foldl g st) := by
  induction n with
  | zero => intro st h; simpa using h
  | succ n ih =>
    intro st h
    rw [List.range_succ, List.foldl_append, List.foldl_cons, List.foldl_nil]
    exact step n _ (by omega) (ih (fun i st hi hp => step i st (by omega) hp) st h)

/-- The invariant holds for the final state of the double loop. -/
theorem computeHash_final (data : List Nat) (size rowWidth : Nat) :
    HInv data size rowWidth (size * size)
      ((List.range size).foldl (fun st y =>
          (List.range size).foldl (fun st x => hStep data rowWidth y x st) st)
        ⟨List.replicate HASH_BYTES 0, 0, 0, 0⟩) := by
  have init : HInv data size rowWidth 0 ⟨List.replicate HASH_BYTES 0, 0, 0, 0⟩ := by
    refine ⟨rfl, rfl, by simp [HASH_BYTES], by norm_num, by simp, by simp, ?_⟩
    intro j s hj _ _
    exact absurd hj (by omega)
  have hfin := foldl_range_inv size
    (fun st y => (List.range size).foldl (fun st x => hStep data rowWidth y x st) st)
    (fun y st => HInv data size rowWidth (y * size) st)
    (fun y st hy hp => by
      have hin := foldl_range_inv size (fun st x => hStep data rowWidth y x st)
        (fun x st => HInv data size rowWidth (y * size + x) st)
        (fun x st hx hp => hStep_inv data size rowWidth y x (y * size + x) st hx rfl hp)
        st (by simpa using hp)
      show HInv data size rowWidth ((y + 1) * size)
        ((List.range size).foldl (fun st x => hStep data rowWidth y x st) st)
      have he : (y + 1) * size = y * size + size := by ring
      rw [he]
      exact hin)
    ⟨List.replicate HASH_BYTES 0, 0, 0, 0⟩ (by simpa using init)
  exact hfin

/-- The output buffer always has exactly `HASH_BYTES = 128` bytes. -/
theorem length_computeHashFromPixels (data : List Nat) (size rowWidth : Nat) :
    (computeHashFromPixels data size rowWidth).length = 128 := by
  unfold computeHashFromPixels
  exact (computeHash_final data size rowWidth).2.2.1

/-- C4 (amended): for a pixel buffer of `(size+1)*size` bytes, output bit
`k = y*size + x` (byte `k / 8`, bit `7 - k % 8` from the top) is 1 exactly
when pixel `(x, y)` is strictly darker than its right neighbour — provided
the bit lands in a byte that is completely packed (`8 * (k/8 + 1) ≤ size²`)
and within the fixed 128-byte output (`k/8 < 128`).  Both conditions hold
for every `k < 1024` at the shipped `size = 32`; the counterexample shows
the claim fails without them. -/
theorem C4_bit_packing (data : List Nat) (size k : Nat)
    (hdata : data.length = (size + 1) * size)
    (hk : k < size * size) (hbyte : k / 8 < 128)
    (hflush : 8 * (k / 8 + 1) ≤ size * size) :
    (Nat.testBit ((computeHashFromPixels data size (size + 1)).getD (k / 8) 0)
        (7 - k % 8) = true)
    ↔ data.getD ((k / size) * (size + 1) + k % size) 0
        < data.getD ((k / size) * (size + 1) + k % size + 1) 0 := by
  unfold computeHashFromPixels
  have hfin := computeHash_final data size (size + 1)
  have h := hfin.2.2.2.2.2.2 (k / 8) (k % 8) (by omega) hbyte
    (Nat.mod_lt _ (by norm_num))
  rw [show 8 * (k / 8) + k % 8 = k from by omega] at h
  unfold bitCond at h
  exact h

/-- C4 counterexample: at `size = 2` the four difference bits never fill a
byte, so nothing is written: pixel (0,0) is strictly darker than pixel (1,0),
yet output bit `k = 0` (byte 0, top bit) is 0, not 1 as the claim requires. -/
theorem C4_counterexample :
    ([0, 1, 0, 0, 0, 0] : List Nat).length = (2 + 1) * 2
    ∧ ([0, 1, 0, 0, 0, 0] : List Nat).getD 0 0 < ([0, 1, 0, 0, 0, 0] : List Nat).getD 1 0
    ∧ Nat.testBit ((computeHashFromPixels [0, 1, 0, 0, 0, 0] 2 3).getD 0 0) 7
        = false := by
  refine ⟨by decide, by decide, by decide⟩

/-- C4 witness: the amended theorem applied to the all-zero 33×32 buffer at
bit `k = 0` with the shipped `size = 32`. -/
theorem C4_witness :
    (List.replicate ((32 + 1) * 32) (0 : Nat)).length = (32 + 1) * 32
    ∧ 0 < 32 * 32 ∧ 0 / 8 < 128 ∧ 8 * (0 / 8 + 1) ≤ 32 * 32
    ∧ ((Nat.testBit ((computeHashFromPixels
          (List.replicate ((32 + 1) * 32) 0) 32 (32 + 1)).getD (0 / 8) 0)
        (7 - 0 % 8) = true)
      ↔ (List.replicate ((32 + 1) * 32) (0 : Nat)).getD
            ((0 / 32) * (32 + 1) + 0 % 32) 0
          < (List.replicate ((32 + 1) * 32) (0 : Nat)).getD
            ((0 / 32) * (32 + 1) + 0 % 32 + 1) 0) :=
  ⟨by decide, by decide, by decide, by decide,
    C4_bit_packing (List.replicate ((32 + 1) * 32) 0) 32 0 (by decide) (by decide)
      (by decide) (by decide)⟩

/-- C9 (amended): the difference-hash buffer is always exactly 128 bytes
(1024 bits) for every `size` and `rowWidth` — `Buffer.alloc(HASH_BYTES)` is
returned unconditionally — so the output consists of the `size × size`
difference bits exactly when `size * size = 1024`, i.e. at the shipped
`size = 32`; smaller sizes leave zero padding (and drop an unfilled final
byte), larger sizes lose the excess bits. -/
theorem C9_output_always_128_bytes (data : List Nat) (size rowWidth : Nat) :
    (computeHashFromPixels data size rowWidth).length = 128 :=
  length_computeHashFromPixels data size rowWidth

/-- C9 counterexample: at `size = 2` the output is still 128 bytes = 1024
bits, not `size × size = 4` bits. -/
theorem C9_counterexample :
    (computeHashFromPixels [0, 1, 0, 0, 0, 0] 2 3).length = 128
    ∧ 8 * (computeHashFromPixels [0, 1, 0, 0, 0, 0] 2 3).length ≠ 2 * 2 := by
  refine ⟨by decide, by decide⟩

/-! ### Index store: `loadIndex` (C1) -/

/-- `String.prototype.split(c)` on a character list: the segments between
occurrences of `c`, leftmost first; there is always at least one segment. -/
def splitOnChar (c : Char) : List Char → List (List Char)
  | [] => [[]]
  | x :: xs =>
    let r := splitOnChar c xs
    if x = c then [] :: r else (x :: r.headD []) :: r.tail

/-- `loadIndex`, over the decompressed payloads (the source gunzips both
buffers; gunzip is the external inverse of the gzip applied when the blobs
were written): `names = namesStr.split('\n').filter(Boolean)` — `Boolean(s)`
is false exactly for the empty string — and the fingerprint buffer is
returned as-is.  Nothing else happens: no validation of any kind. -/
def loadIndex (namesBlob : List Char) (hashesBlob : List Nat) : IconIndex :=
  { names := (splitOnChar '\n' namesBlob).filter (fun s => !s.isEmpty),
    hashes := hashesBlob }

/-- C1 counterexample: `loadIndex` on the one-name payload `"a"` and an
empty fingerprint payload returns normally with one parsed name and zero
hash bytes — `0 ≠ 128 × 1` — instead of raising a corrupt-index error:
the source performs no length check at load time and has no failure path. -/
theorem C1_counterexample :
    (loadIndex ['a'] []).names.length = 1
    ∧ (loadIndex ['a'] []).hashes.length = 0
    ∧ (0 : Nat) ≠ 128 * 1 := by
  refine ⟨by decide, by decide, by decide⟩

/-- C1 (amended): `loadIndex` performs no validation whatsoever: for every
pair of decompressed payloads it returns normally, with `hashes` the
fingerprint payload unchanged and `names` the nonempty newline-separated
segments of the names payload (so every parsed name is nonempty); no
relation between `hashes.length` and `128 * names.length` is checked at
load — a mismatched pair only surfaces later, during search, where
out-of-range fingerprint reads coerce to 0. -/
theorem C1_no_load_validation (namesBlob : List Char) (hashesBlob : List Nat) :
    (loadIndex namesBlob hashesBlob).hashes = hashesBlob
    ∧ (loadIndex namesBlob hashesBlob).names
        = (splitOnChar '\n' namesBlob).filter (fun s => !s.isEmpty)
    ∧ ∀ nm ∈ (loadIndex namesBlob hashesBlob).names, nm ≠ [] := by
  refine ⟨rfl, rfl, ?_⟩
  intro nm hm hnil
  have h := List.of_mem_filter hm
  rw [hnil] at h
  simp at h

/-! ### Batch builder: `extractHashesFromSprite` and `buildIndex` (C8, C10) -/

/-- An input icon: `{ name: string; svg: string }`. -/
structure IconInput where
  name : List Char
  svg : List Char

instance : Inhabited IconInput := ⟨⟨[], []⟩⟩

def SPRITE_COLS : Nat := 50

/-- One inner-loop iteration of `extractHashesFromSprite`'s per-icon double
loop: identical byte packing to `hStep`, but reading the sprite raster at
`rowStart + x` where `rowStart = (startY + y) * spriteWidth + startX`. -/
def eStep (data : List Nat) (spriteWidth startX startY y x : Nat)
    (st : HState) : HState :=
  let rowStart := (startY + y) * spriteWidth + startX
  let b := if data.getD (rowStart + x) 0 < data.getD (rowStart + x + 1) 0
    then st.byte ||| (128 >>> st.bitInByte) else st.byte
  if st.bitInByte + 1 = 8 then
    ⟨st.hash.set st.byteIndex b, st.byteIndex + 1, 0, 0⟩
  else
    ⟨st.hash, st.byteIndex, b, st.bitInByte + 1⟩

/-- The fingerprint of one icon cell inside a rendered sprite sheet:
`Buffer.alloc(HASH_BYTES)` followed by the double loop whose bounds are
both `iconHeight`, exactly as in the source (`iconHeight` comparisons per
row). -/
def extractOne (data : List Nat) (spriteWidth startX startY iconHeight : Nat) :
    List Nat :=
  ((List.range iconHeight).foldl (fun st y =>
      (List.range iconHeight).foldl (fun st x =>
        eStep data spriteWidth startX startY y x st) st)
    ⟨List.replicate HASH_BYTES 0, 0, 0, 0⟩).hash

/-- `extractHashesFromSprite`: for each `i < count`, icon `i`'s cell starts
at `startX = (i % cols) * iconWidth`, `startY = (i / cols) * iconHeight`. -/
def extractHashesFromSprite (data : List Nat)
    (spriteWidth count cols iconWidth iconHeight : Nat) : List (List Nat) :=
  (List.range count).map (fun i =>
    extractOne data spriteWidth ((i % cols) * iconWidth)
      ((i / cols) * iconHeight) iconHeight)

/-- One batch iteration of `buildIndex`, acting on the two parallel
accumulators (`names`, `hashBuffers`).  The two effectful render paths are
oracles: `rb batch` is the grayscale sprite-sheet raster of the batch
(`none` when sharp throws, sending the whole batch to the per-icon
fallback), and `ri icon` is the icon's own rasterized `(size+1) × size`
buffer used by `computeDHash` (`none` when that throws, skipping the icon).
On the sprite path, name and batch fingerprint `j` are pushed pairwise for
each `j < batch.length`; on the fallback path each surviving icon pushes
its name and its `computeHashFromPixels` fingerprint. -/
def buildStep (size : Nat) (rb : List IconInput → Option (List Nat))
    (ri : IconInput → Option (List Nat)) (icons : List IconInput)
    (acc : List (List Char) × List (List Nat)) (i : Nat) :
    List (List Char) × List (List Nat) :=
  let batch := (icons.drop i).take (SPRITE_COLS * 20)
  match rb batch with
  | some data =>
    let batchHashes := extractHashesFromSprite data (SPRITE_COLS * (size + 1))
      batch.length SPRITE_COLS (size + 1) size
    (List.range batch.length).foldl
      (fun a j => (a.1 ++ [(batch.getD j default).name],
        a.2 ++ [batchHashes.getD j []])) acc
  | none =>
    batch.foldl (fun a icon =>
      match ri icon with
      | some pixels =>
        (a.1 ++ [icon.name], a.2 ++ [computeHashFromPixels pixels size (size + 1)])
      | none => a) acc

/-- `buildIndex`: the batch loop `for (i = 0; i < icons.length; i += 1000)`
(`batchSize = SPRITE_COLS * 20`), then `names.join('\n')` and
`Buffer.concat(hashBuffers)`. -/
def buildIndex (icons : List IconInput) (size : Nat)
    (rb : List IconInput → Option (List Nat))
    (ri : IconInput → Option (List Nat)) : List Char × List Nat :=
  let acc := (List.range' 0
      ((icons.length + (SPRITE_COLS * 20 - 1)) / (SPRITE_COLS * 20))
      (SPRITE_COLS * 20)).foldl (buildStep size rb ri icons) ([], [])
  (List.intercalate ['\n'] acc.1, acc.2.flatten)

/-- The per-record view of the same loop: each pushed (name, fingerprint)
pair, in processing order. -/
def recordStep (size : Nat) (rb : List IconInput → Option (List Nat))
    (ri : IconInput → Option (List Nat)) (icons : List IconInput)
    (acc : List (List Char × List Nat)) (i : Nat) :
    List (List Char × List Nat) :=
  let batch := (icons.drop i).take (SPRITE_COLS * 20)
  match rb batch with
  | some data =>
    let batchHashes := extractHashesFromSprite data (SPRITE_COLS * (size + 1))
      batch.length SPRITE_COLS (size + 1) size
    (List.range batch.length).foldl
      (fun a j => a ++ [((batch.getD j default).name, batchHashes.getD j [])]) acc
  | none =>
    batch.foldl (fun a icon =>
      match ri icon with
      | some pixels =>
        a ++ [(icon.name, computeHashFromPixels pixels size (size + 1))]
      | none => a) acc

/-- The records pushed by `buildIndex`'s loop, in order. -/
def buildRecords (icons : List IconInput) (size : Nat)
    (rb : List IconInput → Option (List Nat))
    (ri : IconInput → Option (List Nat)) : List (List Char × List Nat) :=
  (List.range' 0 ((icons.length + (SPRITE_COLS * 20 - 1)) / (SPRITE_COLS * 20))
    (SPRITE_COLS * 20)).foldl (recordStep size rb ri icons) []

/-- `eStep` never changes the length of the hash buffer (a `Buffer` write
past the end is a no-op, and `List.set` likewise). -/
theorem eStep_hash_length (data : List Nat) (spriteWidth startX startY y x : Nat)
    (st : HState) :
    (eStep data spriteWidth startX startY y x st).hash.length = st.hash.length := by
  unfold eStep
  dsimp only
  split
  · simp
  · rfl

/-- Folding any hash-length-preserving step preserves the hash length. -/
theorem foldl_hash_length {γ : Type} (g : HState → γ → HState)
    (hg : ∀ st c, (g st c).hash.length = st.hash.length) (l : List γ) :
    ∀ st : HState, (l.foldl g st).hash.length = st.hash.length := by
  induction l with
  | nil => intro st; rfl
  | cons c t ih => intro st; rw [List.foldl_cons, ih, hg]

/-- Every fingerprint extracted from a sprite cell is exactly 128 bytes. -/
theorem length_extractOne (data : List Nat)
    (spriteWidth startX startY iconHeight : Nat) :
    (extractOne data spriteWidth startX startY iconHeight).length = 128 := by
  unfold extractOne
  rw [foldl_hash_length _ (fun st y => foldl_hash_length _
    (fun st x => eStep_hash_length data spriteWidth startX startY y x st)
    (List.range iconHeight) st) (List.range iconHeight) _]
  simp [HASH_BYTES]

/-- Indexing into the extracted batch fingerprints, in range. -/
theorem extract_getD (data : List Nat)
    (spriteWidth count cols iconWidth iconHeight j : Nat) (hj : j < count) :
    (extractHashesFromSprite data spriteWidth count cols iconWidth
        iconHeight).getD j []
      = extractOne data spriteWidth ((j % cols) * iconWidth)
          ((j / cols) * iconHeight) iconHeight := by
  unfold extractHashesFromSprite
  rw [List.getD_eq_getElem _ _ (by simpa using hj)]
  simp

/-- A record is good when its fingerprint is 128 bytes and its name is the
name of one of the input icons. -/
def GoodRec (icons : List IconInput) (r : List Char × List Nat) : Prop :=
  r.2.length = 128 ∧ ∃ ic ∈ icons, r.1 = ic.name

/-- Fold invariant preservation, with membership of the step element. -/
theorem foldl_keep_inv_mem {α β : Type} (P : β → Prop) :
    ∀ (l : List α) (g : β → α → β),
      (∀ b a, a ∈ l → P b → P (g b a)) → ∀ b : β, P b → P (l.foldl g b) := by
  intro l
  induction l with
  | nil => intro g hg b hb; exact hb
  | cons c t ih =>
    intro g hg b hb
    rw [List.foldl_cons]
    exact ih g (fun b a ha hPb => hg b a (List.mem_cons_of_mem c ha) hPb) _
      (hg b c (by simp) hb)

/-- Each batch step only pushes good records. -/
theorem recordStep_good (size : Nat) (rb : List IconInput → Option (List Nat))
    (ri : IconInput → Option (List Nat)) (icons : List IconInput)
    (p : List (List Char × List Nat)) (i : Nat)
    (hp : ∀ r ∈ p, GoodRec icons r) :
    ∀ r ∈ recordStep size rb ri icons p i, GoodRec icons r := by
  unfold recordStep
  dsimp only
  have hbs : ∀ ic ∈ (icons.drop i).take (SPRITE_COLS * 20), ic ∈ icons :=
    fun ic h => List.mem_of_mem_drop (List.mem_of_mem_take h)
  cases hb : rb ((icons.drop i).take (SPRITE_COLS * 20)) with
  | some data =>
    dsimp only
    refine foldl_keep_inv_mem (fun a => ∀ r ∈ a, GoodRec icons r) _ _ ?_ p hp
    intro a j hj ha r hr
    rw [List.mem_append] at hr
    rcases hr with hr | hr
    · exact ha r hr
    · rw [List.mem_singleton] at hr
      subst hr
      have hjlt : j < ((icons.drop i).take (SPRITE_COLS * 20)).length := by
        simpa using hj
      constructor
      · rw [extract_getD _ _ _ _ _ _ _ hjlt]
        exact length_extractOne _ _ _ _ _
      · refine ⟨((icons.drop i).take (SPRITE_COLS * 20)).getD j default, ?_, rfl⟩
        apply hbs
        rw [List.getD_eq_getElem _ _ hjlt]
        exact List.getElem_mem hjlt
  | none =>
    dsimp only
    refine foldl_keep_inv_mem (fun a => ∀ r ∈ a, GoodRec icons r) _ _ ?_ p hp
    intro a ic hic ha
    cases hri : ri ic with
    | some px =>
      dsimp only
      intro r hr
      rw [List.mem_append] at hr
      rcases hr with hr | hr
      · exact ha r hr
      · rw [List.mem_singleton] at hr
        subst hr
        exact ⟨length_computeHashFromPixels px size (size + 1), ic, hbs ic hic, rfl⟩
    | none => exact ha

/-- Every record pushed by the build loop is good. -/
theorem buildRecords_good (icons : List IconInput) (size : Nat)
    (rb : List IconInput → Option (List Nat))
    (ri : IconInput → Option (List Nat)) :
    ∀ r ∈ buildRecords icons size rb ri, GoodRec icons r := by
  unfold buildRecords
  refine foldl_keep_inv_mem (fun a => ∀ r ∈ a, GoodRec icons r) _ _ ?_ [] ?_
  · intro p i _ hp
    exact recordStep_good size rb ri icons p i hp
  · intro r hr
    simp at hr

/-- A fold over a pair of parallel lists mirrors the fold over the paired
records when each step does. -/
theorem foldl_pair_mirror {α β γ : Type} (l : List γ)
    (f : (List α × List β) → γ → (List α × List β))
    (g : List (α × β) → γ → List (α × β))
    (hfg : ∀ (p : List (α × β)) (c : γ),
      f (p.map Prod.fst, p.map Prod.snd) c
        = ((g p c).map Prod.fst, (g p c).map Prod.snd)) :
    ∀ p : List (α × β),
      l.foldl f (p.map Prod.fst, p.map Prod.snd)
        = ((l.foldl g p).map Prod.fst, (l.foldl g p).map Prod.snd) := by
  induction l with
  | nil => intro p; rfl
  | cons c t ih =>
    intro p
    rw [List.foldl_cons, List.foldl_cons, hfg p c]
    exact ih (g p c)

/-- One batch step on the two parallel accumulators is the image of the
same step on the paired records: names and fingerprints are pushed in
lockstep. -/
theorem buildStep_mirror (size : Nat) (rb : List IconInput → Option (List Nat))
    (ri : IconInput → Option (List Nat)) (icons : List IconInput)
    (p : List (List Char × List Nat)) (i : Nat) :
    buildStep size rb ri icons (p.map Prod.fst, p.map Prod.snd) i
      = ((recordStep size rb ri icons p i).map Prod.fst,
         (recordStep size rb ri icons p i).map Prod.snd) := by
  unfold buildStep recordStep
  dsimp only
  cases hb : rb ((icons.drop i).take (SPRITE_COLS * 20)) with
  | some data =>
    dsimp only
    refine foldl_pair_mirror _ _ _ (fun q j => ?_) p
    simp [List.map_append]
  | none =>
    dsimp only
    refine foldl_pair_mirror _ _ _ (fun q ic => ?_) p
    cases hri : ri ic with
    | some px => simp [List.map_append]
    | none => rfl

/-- `buildIndex`'s output is the newline join of the record names and the
concatenation of the record fingerprints, in order. -/
theorem buildIndex_eq_records (icons : List IconInput) (size : Nat)
    (rb : List IconInput → Option (List Nat))
    (ri : IconInput → Option (List Nat)) :
    buildIndex icons size rb ri
      = (List.intercalate ['\n'] ((buildRecords icons size rb ri).map Prod.fst),
         ((buildRecords icons size rb ri).map Prod.snd).flatten) := by
  unfold buildIndex buildRecords
  dsimp only
  have h := foldl_pair_mirror
    (List.range' 0 ((icons.length + (SPRITE_COLS * 20 - 1)) / (SPRITE_COLS * 20))
      (SPRITE_COLS * 20))
    (buildStep size rb ri icons) (recordStep size rb ri icons)
    (fun q i => buildStep_mirror size rb ri icons q i) []
  rw [show ((([] : List (List Char × List Nat)).map Prod.fst),
      (([] : List (List Char × List Nat)).map Prod.snd))
      = (([] : List (List Char)), ([] : List (List Nat))) from rfl] at h
  rw [h]

/-- One-step unfolding of `splitOnChar` on a cons cell. -/
theorem splitOnChar_cons (c x : Char) (xs : List Char) :
    splitOnChar c (x :: xs)
      = if x = c then [] :: splitOnChar c xs
        else (x :: (splitOnChar c xs).headD []) :: (splitOnChar c xs).tail := rfl

/-- `splitOnChar` always yields at least one segment. -/
theorem splitOnChar_ne_nil (c : Char) (l : List Char) : splitOnChar c l ≠ [] := by
  cases l with
  | nil => simp [splitOnChar]
  | cons x xs =>
    rw [splitOnChar_cons]
    split <;> simp

/-- Splitting a separator-free string yields that single segment. -/
theorem splitOnChar_no_sep (c : Char) (a : List Char) (ha : c ∉ a) :
    splitOnChar c a = [a] := by
  induction a with
  | nil => rfl
  | cons x a' ih =>
    have hx : ¬ x = c := fun h => ha (h ▸ List.mem_cons_self x a')
    rw [splitOnChar_cons, ih (fun h => ha (List.mem_cons_of_mem _ h)), if_neg hx]
    rfl

/-- Splitting peels off a leading separator-free segment. -/
theorem splitOnChar_append_cons (c : Char) (a t : List Char) (ha : c ∉ a) :
    splitOnChar c (a ++ c :: t) = a :: splitOnChar c t := by
  induction a with
  | nil =>
    rw [List.nil_append, splitOnChar_cons, if_pos rfl]
  | cons x a' ih =>
    have hx : ¬ x = c := fun h => ha (h ▸ List.mem_cons_self x a')
    rw [List.cons_append, splitOnChar_cons,
      ih (fun h => ha (List.mem_cons_of_mem _ h)), if_neg hx]
    rfl

/-- Round trip of the two blob formats: splitting a newline join of
nonempty, newline-free names and dropping empty segments recovers exactly
the original names. -/
theorem split_intercalate_roundtrip (l : List (List Char))
    (h : ∀ s ∈ l, s ≠ [] ∧ '\n' ∉ s) :
    (splitOnChar '\n' (List.intercalate ['\n'] l)).filter
      (fun s => !s.isEmpty) = l := by
  induction l with
  | nil => rfl
  | cons a t ih =>
    have ha := h a (by simp)
    have hane : (!a.isEmpty) = true := by
      simpa [List.isEmpty_iff] using ha.1
    cases t with
    | nil =>
      have hint : List.intercalate ['\n'] [a] = a := by
        simp [List.intercalate, List.intersperse]
      rw [hint, splitOnChar_no_sep '\n' a ha.2, List.filter_cons, if_pos hane]
      rfl
    | cons b t' =>
      have hint : List.intercalate ['\n'] (a :: b :: t')
          = a ++ '\n' :: List.intercalate ['\n'] (b :: t') := by
        simp [List.intercalate, List.intersperse]
      rw [hint, splitOnChar_append_cons '\n' a _ ha.2, List.filter_cons,
        if_pos hane, ih (fun s hs => h s (List.mem_cons_of_mem a hs))]

/-- The length of a concatenation of 128-byte buffers. -/
theorem flatten_len_const (L : List (List Nat)) (h : ∀ b ∈ L, b.length = 128) :
    L.flatten.length = 128 * L.length := by
  induction L with
  | nil => rfl
  | cons b t ih =>
    rw [List.flatten_cons, List.length_append, h b (by simp),
      ih (fun x hx => h x (by simp [hx])), List.length_cons]
    ring

/-- Slicing a concatenation of 128-byte buffers at record offsets recovers
the individual buffers. -/
theorem flatten_slice (L : List (List Nat)) (h : ∀ b ∈ L, b.length = 128) :
    ∀ i, i < L.length → (L.flatten.drop (128 * i)).take 128 = L.getD i [] := by
  induction L with
  | nil => intro i hi; exact absurd hi (Nat.not_lt_zero i)
  | cons b t ih =>
    intro i hi
    have hb := h b (by simp)
    cases i with
    | zero =>
      rw [List.flatten_cons, Nat.mul_zero, List.drop_zero, List.take_left' hb]
      rfl
    | succ j =>
      rw [List.flatten_cons, show 128 * (j + 1) = 128 + 128 * j from by ring,
        ← List.drop_drop, List.drop_left' hb]
      exact ih (fun x hx => h x (by simp [hx])) j (by
        rw [List.length_cons] at hi; omega)

/-- C10 (amended): provided every icon name is nonempty and newline-free,
`buildIndex` pushes a name and its 128-byte fingerprint only as a pair —
on both the sprite path and the per-icon fallback — so for every pattern of
batch failures, fallback successes and skipped icons the output satisfies
`hashes.length = 128 * (number of names parsed from namesText)`: dropped
icons shorten the index but never desynchronize the two blobs.  (The
nonempty-name proviso is necessary: an empty name joins and parses away
while its fingerprint stays, see the counterexample.) -/
theorem C10_pairing_invariant (icons : List IconInput) (size : Nat)
    (rb : List IconInput → Option (List Nat))
    (ri : IconInput → Option (List Nat))
    (hnames : ∀ ic ∈ icons, ic.name ≠ [] ∧ '\n' ∉ ic.name) :
    (buildIndex icons size rb ri).2.length
      = 128 * ((splitOnChar '\n' (buildIndex icons size rb ri).1).filter
          (fun s => !s.isEmpty)).length := by
  rw [buildIndex_eq_records]
  dsimp only
  have hgood := buildRecords_good icons size rb ri
  have hnm : ∀ s ∈ (buildRecords icons size rb ri).map Prod.fst,
      s ≠ [] ∧ '\n' ∉ s := by
    intro s hs
    obtain ⟨r, hr, hfst⟩ := List.mem_map.mp hs
    obtain ⟨_, ic, hic, hname⟩ := hgood r hr
    rw [← hfst, hname]
    exact hnames ic hic
  have hlen : ∀ b ∈ (buildRecords icons size rb ri).map Prod.snd,
      b.length = 128 := by
    intro b hb
    obtain ⟨r, hr, hsnd⟩ := List.mem_map.mp hb
    rw [← hsnd]
    exact (hgood r hr).1
  rw [split_intercalate_roundtrip _ hnm, flatten_len_const _ hlen]
  simp

/-- C10 counterexample: a single icon with the empty name (batch render
fails, per-icon render succeeds) produces a 128-byte hashes blob but an
empty names text that parses to zero names: `128 ≠ 128 * 0`.  The frozen
claim, which only excludes newlines in names, is therefore false. -/
theorem C10_counterexample :
    (∀ ic ∈ [(⟨[], ['s']⟩ : IconInput)], '\n' ∉ ic.name)
    ∧ (buildIndex [(⟨[], ['s']⟩ : IconInput)] 1 (fun _ => none)
        (fun _ => some [0, 0])).2.length = 128
    ∧ ((splitOnChar '\n' (buildIndex [(⟨[], ['s']⟩ : IconInput)] 1
          (fun _ => none) (fun _ => some [0, 0])).1).filter
        (fun s => !s.isEmpty)).length = 0
    ∧ (128 : Nat) ≠ 128 * 0 := by
  refine ⟨by decide, by decide, by decide, by decide⟩

/-- C10 witness: a concrete one-icon fallback run where the invariant holds
(`128 = 128 * 1`). -/
theorem C10_witness :
    (∀ ic ∈ [(⟨['a'], ['s']⟩ : IconInput)], ic.name ≠ [] ∧ '\n' ∉ ic.name)
    ∧ (buildIndex [(⟨['a'], ['s']⟩ : IconInput)] 1 (fun _ => none)
        (fun _ => some [0, 0])).2.length
      = 128 * ((splitOnChar '\n' (buildIndex [(⟨['a'], ['s']⟩ : IconInput)] 1
            (fun _ => none) (fun _ => some [0, 0])).1).filter
          (fun s => !s.isEmpty)).length :=
  ⟨by decide, C10_pairing_invariant [(⟨['a'], ['s']⟩ : IconInput)] 1
    (fun _ => none) (fun _ => some [0, 0]) (by decide)⟩

/-- C8 (amended): provided every icon name is nonempty and newline-free,
loading the two blobs produced by `buildIndex` reproduces exactly the
pushed names in processing order, and record `i`'s fingerprint in the
loaded index — the 128-byte slice of the hashes blob at offset `128 * i` —
is bit-identical to the fingerprint computed for the `i`-th surviving icon
(sprite-extracted, or per-icon `computeHashFromPixels` on the fallback
path).  (The name proviso is necessary: a name containing a newline, or an
empty name, parses back differently, see the counterexample.) -/
theorem C8_build_load_roundtrip (icons : List IconInput) (size : Nat)
    (rb : List IconInput → Option (List Nat))
    (ri : IconInput → Option (List Nat))
    (hnames : ∀ ic ∈ icons, ic.name ≠ [] ∧ '\n' ∉ ic.name) :
    (loadIndex (buildIndex icons size rb ri).1
        (buildIndex icons size rb ri).2).names
      = (buildRecords icons size rb ri).map Prod.fst
    ∧ ∀ i, i < (buildRecords icons size rb ri).length →
        ((loadIndex (buildIndex icons size rb ri).1
            (buildIndex icons size rb ri).2).hashes.drop (128 * i)).take 128
          = ((buildRecords icons size rb ri).getD i default).2 := by
  have hgood := buildRecords_good icons size rb ri
  have hnm : ∀ s ∈ (buildRecords icons size rb ri).map Prod.fst,
      s ≠ [] ∧ '\n' ∉ s := by
    intro s hs
    obtain ⟨r, hr, hfst⟩ := List.mem_map.mp hs
    obtain ⟨_, ic, hic, hname⟩ := hgood r hr
    rw [← hfst, hname]
    exact hnames ic hic
  have hlen : ∀ b ∈ (buildRecords icons size rb ri).map Prod.snd,
      b.length = 128 := by
    intro b hb
    obtain ⟨r, hr, hsnd⟩ := List.mem_map.mp hb
    rw [← hsnd]
    exact (hgood r hr).1
  constructor
  · show (splitOnChar '\n' (buildIndex icons size rb ri).1).filter
        (fun s => !s.isEmpty) = _
    rw [buildIndex_eq_records]
    exact split_intercalate_roundtrip _ hnm
  · intro i hi
    show (((buildIndex icons size rb ri).2).drop (128 * i)).take 128 = _
    rw [buildIndex_eq_records]
    dsimp only
    rw [flatten_slice _ hlen i (by simpa using hi),
      List.getD_eq_getElem _ _ (by simpa using hi), List.getD_eq_getElem _ _ hi]
    simp

/-- C8 counterexample: a single surviving icon whose name is the newline
character round-trips to an index with zero names, so the loaded names do
not reproduce the built record names; the claim over every icon list is
false. -/
theorem C8_counterexample :
    ((buildRecords [(⟨['\n'], ['s']⟩ : IconInput)] 1 (fun _ => none)
        (fun _ => some [0, 0])).map Prod.fst = [['\n']])
    ∧ (loadIndex (buildIndex [(⟨['\n'], ['s']⟩ : IconInput)] 1 (fun _ => none)
          (fun _ => some [0, 0])).1
        (buildIndex [(⟨['\n'], ['s']⟩ : IconInput)] 1 (fun _ => none)
          (fun _ => some [0, 0])).2).names = [] := by
  refine ⟨by decide, by decide⟩

/-- C8 witness: a concrete one-icon sprite-path run, instantiating the
round-trip theorem. -/
theorem C8_witness :
    (∀ ic ∈ [(⟨['a'], ['s']⟩ : IconInput)], ic.name ≠ [] ∧ '\n' ∉ ic.name)
    ∧ ((loadIndex (buildIndex [(⟨['a'], ['s']⟩ : IconInput)] 1
            (fun _ => some (List.replicate 100 0)) (fun _ => none)).1
          (buildIndex [(⟨['a'], ['s']⟩ : IconInput)] 1
            (fun _ => some (List.replicate 100 0)) (fun _ => none)).2).names
        = (buildRecords [(⟨['a'], ['s']⟩ : IconInput)] 1
            (fun _ => some (List.replicate 100 0)) (fun _ => none)).map Prod.fst
      ∧ ∀ i, i < (buildRecords [(⟨['a'], ['s']⟩ : IconInput)] 1
            (fun _ => some (List.replicate 100 0)) (fun _ => none)).length →
          ((loadIndex (buildIndex [(⟨['a'], ['s']⟩ : IconInput)] 1
                (fun _ => some (List.replicate 100 0)) (fun _ => none)).1
              (buildIndex [(⟨['a'], ['s']⟩ : IconInput)] 1
                (fun _ => some (List.replicate 100 0))
                (fun _ => none)).2).hashes.drop (128 * i)).take 128
            = ((buildRecords [(⟨['a'], ['s']⟩ : IconInput)] 1
                (fun _ => some (List.replicate 100 0))
                (fun _ => none)).getD i default).2) :=
  ⟨by decide, C8_build_load_roundtrip [(⟨['a'], ['s']⟩ : IconInput)] 1
    (fun _ => some (List.replicate 100 0)) (fun _ => none) (by decide)⟩
